import Mathlib

/-!
Verification development for `networkx/linalg/algebraic_connectivity.py`.

The Python source is shallowly embedded below: graphs become explicit node and
edge lists, real numbers become rationals (`ℚ`), fallible functions return
`Except`, and the external numerical collaborators (the eigensolvers `eigh` and
`eigsh`, the random initialization) are abstracted by oracle parameters, since
the claims under consideration never depend on the values they produce.
-/

namespace NX

/-- An input edge: endpoints and the optional weight attribute (the value under
the caller-supplied weight key; `none` when the attribute is absent). -/
structure InEdge where
  src : ℕ
  dst : ℕ
  w : Option ℚ
deriving DecidableEq, Repr

/-- Model of an arbitrary networkx input graph: directedness and multigraph
flags, the node list (insertion order) and the edge list as reported by
`edges_iter(data=True)`.  For an undirected graph each edge appears once, with
one fixed endpoint orientation. -/
structure InGraph where
  directed : Bool
  multi : Bool
  nodes : List ℕ
  edges : List InEdge
deriving DecidableEq, Repr

/-- Output of `_preprocess_graph`: a simple undirected weighted graph
(`nx.Graph` with a numeric weight per edge). -/
structure WGraph where
  nodes : List ℕ
  edges : List (ℕ × ℕ × ℚ)
deriving DecidableEq, Repr

/-- Python `abs()` on a rational, written so that the kernel can evaluate it. -/
def qabs (x : ℚ) : ℚ := if x < 0 then -x else x

theorem qabs_eq_abs (x : ℚ) : qabs x = |x| := by
  unfold qabs
  rcases lt_or_le x 0 with h | h
  · rw [if_pos h, abs_of_neg h]
  · rw [if_neg (not_lt.mpr h), abs_of_nonneg h]

/-- `e.get(weight, 1.)`: the weight attribute of an edge, defaulting to 1. -/
def edgeW (e : InEdge) : ℚ := e.w.getD 1

/-- Whether the unordered pairs `{u, v}` and `{x, y}` coincide. -/
def sameUPair (u v x y : ℕ) : Bool :=
  decide ((u = x ∧ v = y) ∨ (u = y ∧ v = x))

/-- Whether edge `e` joins the unordered pair `{u, v}`. -/
def connectsUPair (u v : ℕ) (e : InEdge) : Bool := sameUPair u v e.src e.dst

/-- `sum(abs(e.get(weight, 1.)) for e in G[u][v].values())`: the sum of the
absolute weights of all edges joining the unordered pair `{u, v}`. -/
def absPairSum (l : List InEdge) (u v : ℕ) : ℚ :=
  ((l.filter (connectsUPair u v)).map (fun e => qabs (edgeW e))).sum

/-- The weight that `nx.Graph.add_weighted_edges_from` leaves on the pair
`{u, v}` after inserting `(u, v, w)` followed by the rest of the list: repeated
insertions of the same unordered pair overwrite the weight, so the last one
wins. -/
def lastWeightFor (u v : ℕ) (w : ℚ) (l : List (ℕ × ℕ × ℚ)) : ℚ :=
  ((w :: (l.filter (fun t => sameUPair u v t.1 t.2.1)).map (fun t => t.2.2)).getLast
    (List.cons_ne_nil _ _))

/-- Structural worker for `addWEdges`; the fuel argument only serves to make
the recursion structural and is always instantiated with the list length. -/
def addWEdgesGo : ℕ → List (ℕ × ℕ × ℚ) → List (ℕ × ℕ × ℚ)
  | _, [] => []
  | 0, _ :: _ => []
  | n + 1, (u, v, w) :: rest =>
      (u, v, lastWeightFor u v w rest) ::
        addWEdgesGo n (rest.filter (fun t => ! sameUPair u v t.1 t.2.1))

/-- The edge list of an `nx.Graph` after `add_weighted_edges_from l`: one entry
per unordered pair, in order of first insertion, oriented as first inserted,
carrying the last weight assigned to that pair. -/
def addWEdges (l : List (ℕ × ℕ × ℚ)) : List (ℕ × ℕ × ℚ) :=
  addWEdgesGo l.length l

/-- Adding one node to a networkx node list: a no-op when already present,
otherwise appended (networkx preserves insertion order). -/
def addNode (ns : List ℕ) (u : ℕ) : List ℕ := if u ∈ ns then ns else ns ++ [u]

/-- Nodes after `add_weighted_edges_from`: endpoints of inserted edges are
added to the graph when not already present. -/
def nodesAfterAddW (ns : List ℕ) (l : List (ℕ × ℕ × ℚ)) : List ℕ :=
  l.foldl (fun acc t => addNode (addNode acc t.1) t.2.1) ns

/-- Nodes after `add_weighted_edges_from` on the intermediate multigraph. -/
def nodesAfterAddE (ns : List ℕ) (l : List InEdge) : List ℕ :=
  l.foldl (fun acc e => addNode (addNode acc e.src) e.dst) ns

/-- Lines 107–113: a directed graph is first converted to an undirected
multigraph whose edges drop self-loops and resolve the weight attribute
(`add_weighted_edges_from` stores `e.get(weight, 1.)` under the weight key);
an undirected graph is passed through. -/
def interEdges (G : InGraph) : List InEdge :=
  if G.directed then
    (G.edges.filter (fun e => decide (e.src ≠ e.dst))).map
      (fun e => ⟨e.src, e.dst, some (edgeW e)⟩)
  else G.edges

/-- The node list of the (possibly intermediate) graph `G` of line 121:
for a directed input, `H.add_nodes_from(G); H.add_weighted_edges_from(...)`
of lines 108–112 retain the original nodes and add any further endpoints. -/
def interNodes (G : InGraph) : List ℕ :=
  if G.directed then nodesAfterAddE G.nodes (interEdges G) else G.nodes

/-- Lines 114–119: each iterated edge of a multigraph yields its unordered
pair with the sum of the absolute parallel weights; each edge of a simple
graph yields its pair with its absolute weight; self-loops are dropped. -/
def weightedList (G : InGraph) : List (ℕ × ℕ × ℚ) :=
  if G.directed || G.multi then
    ((interEdges G).filter (fun e => decide (e.src ≠ e.dst))).map
      (fun e => (e.src, e.dst, absPairSum (interEdges G) e.src e.dst))
  else
    ((interEdges G).filter (fun e => decide (e.src ≠ e.dst))).map
      (fun e => (e.src, e.dst, qabs (edgeW e)))

/-- Line 122: edges whose computed weight is zero are discarded. -/
def keptList (G : InGraph) : List (ℕ × ℕ × ℚ) :=
  (weightedList G).filter (fun t => decide (t.2.2 ≠ 0))

/-- Embedding of `_preprocess_graph` (source lines 104–123): the surviving
weighted edges are inserted into a fresh simple graph holding all nodes of the
(intermediate) graph (lines 120–122). -/
def preprocess_graph (G : InGraph) : WGraph :=
  ⟨nodesAfterAddW (interNodes G) (keptList G), addWEdges (keptList G)⟩

example :
    preprocess_graph ⟨true, false, [0, 1], [⟨0, 1, some 3⟩, ⟨1, 0, some (-4)⟩]⟩ =
      ⟨[0, 1], [(0, 1, 7)]⟩ := by
  norm_num [preprocess_graph, interEdges, interNodes, weightedList, keptList,
    addWEdges, addWEdgesGo, lastWeightFor, absPairSum,
    connectsUPair, sameUPair, edgeW, qabs, nodesAfterAddW, nodesAfterAddE, addNode]

example :
    preprocess_graph ⟨false, false, [0, 1, 2], [⟨0, 1, some 0⟩, ⟨1, 2, some (-2)⟩]⟩ =
      ⟨[0, 1, 2], [(1, 2, 2)]⟩ := by
  norm_num [preprocess_graph, interEdges, interNodes, weightedList, keptList,
    addWEdges, addWEdgesGo, lastWeightFor, absPairSum,
    connectsUPair, sameUPair, edgeW, qabs, nodesAfterAddW, nodesAfterAddE, addNode]

/-! ### Connectivity and Laplacian diagonal (external collaborators)

`nx.is_connected`, `nx.connected_components` and `nx.laplacian_matrix` are
networkx code that is not part of this source file; they are modelled from the
spec below. -/

/-- The neighbours of `u` read off the edge list. -/
def nbrs (H : WGraph) (u : ℕ) : List ℕ :=
  H.edges.foldr
    (fun t acc => if t.1 = u then t.2.1 :: acc else if t.2.1 = u then t.1 :: acc else acc) []

/-- One breadth step: a vertex set together with all its neighbours. -/
def rstep (H : WGraph) (s : List ℕ) : List ℕ := (s ++ s.flatMap (nbrs H)).dedup

/-- Iterate a function `n` times (structurally, so the kernel can evaluate). -/
def iterN {α : Type} (f : α → α) : ℕ → α → α
  | 0, a => a
  | n + 1, a => iterN f n (f a)

/-- All vertices reachable from `u`: `|nodes|` breadth steps saturate. -/
def reachFrom (H : WGraph) (u : ℕ) : List ℕ := iterN (rstep H) H.nodes.length [u]

/-- Modelled from the spec: `nx.is_connected`, the connectivity check used by
`algebraic_connectivity` and `fiedler_vector` — every node is reachable from
the first one.  (Both call sites guarantee a nonempty graph.) -/
def isConnected (H : WGraph) : Bool :=
  match H.nodes with
  | [] => false
  | u :: _ => H.nodes.all (fun v => decide (v ∈ reachFrom H u))

/-- The weighted degree of `u`: the sum of the weights of its incident edges
(the preprocessed graph has no self-loops). -/
def wdegree (H : WGraph) (u : ℕ) : ℚ :=
  ((H.edges.filter (fun t => decide (t.1 = u ∨ t.2.1 = u))).map (fun t => t.2.2)).sum

/-- Modelled from the spec (§3 data model): the diagonal of
`nx.laplacian_matrix` is the weighted-degree vector, in node order. -/
def laplacianDiag (H : WGraph) : List ℚ := H.nodes.map (wdegree H)

/-- `L[0, 0]`: the weighted degree of the first node. -/
def Ldiag0 (H : WGraph) : ℚ := wdegree H (H.nodes.headD 0)

/-! ### The PCG solver (`_PCGSolver`, lines 31–62) -/

/-- Vector dot product, `numpy.dot` on equal-length 1-d arrays. -/
def dotL (a b : List ℚ) : ℚ := (List.zipWith (fun x y => x * y) a b).sum

/-- The 1-norm `numpy.linalg.norm(v, 1)`. -/
def norm1 (v : List ℚ) : ℚ := (v.map qabs).sum

def vadd (a b : List ℚ) : List ℚ := List.zipWith (fun x y => x + y) a b

def vsub (a b : List ℚ) : List ℚ := List.zipWith (fun x y => x - y) a b

def smul (c : ℚ) (a : List ℚ) : List ℚ := a.map (fun x => c * x)

/-- `numpy.zeros(b.shape)`. -/
def zerosLike (b : List ℚ) : List ℚ := b.map (fun _ => 0)

/-- Sparse matrix–vector product `A * p`, with `A` as a dense list of rows. -/
def matVec (A : List (List ℚ)) (p : List ℚ) : List ℚ := A.map (fun row => dotL row p)

/-- The loop state of `_PCGSolver.solve`: the accumulated solution `x`, the
residual `r`, the scalar `rz` and the search direction `p` (the variable `z`
of the source is consumed within one iteration). -/
structure PCGState where
  x : List ℚ
  r : List ℚ
  rz : ℚ
  p : List ℚ
deriving DecidableEq, Repr

/-- The initialization of `_PCGSolver.solve` (lines 44–49): `x = zeros`,
`r = b`, `z = M(r)`, `rz = dot(r, z)`, `p = z`. -/
def pcgInit (M : List ℚ → List ℚ) (b : List ℚ) : PCGState :=
  ⟨zerosLike b, b, dotL b (M b), M b⟩

/-- The `x` and `r` values after the updates of one loop iteration
(lines 52–55): `Ap = A*p`, `alpha = rz/dot(p, Ap)`, `x += alpha*p`,
`r -= alpha*Ap`. -/
def pcgUpdate (A : List (List ℚ)) (s : PCGState) : List ℚ × List ℚ :=
  let Ap := matVec A s.p
  let alpha := s.rz / dotL s.p Ap
  (vadd s.x (smul alpha s.p), vsub s.r (smul alpha Ap))

/-- The continuation of one loop iteration when the convergence test fails
(lines 58–62): `z = M(r)`, `beta, rz = dot(r, z)/rz, dot(r, z)`,
`p = beta*p + z`. -/
def pcgCont (A : List (List ℚ)) (M : List ℚ → List ℚ) (s : PCGState) : PCGState :=
  let xr := pcgUpdate A s
  let z := M xr.2
  let rz := dotL xr.2 z
  ⟨xr.1, xr.2, rz, vadd (smul (rz / s.rz) s.p) z⟩

/-- One iteration of the `while True` loop of `_PCGSolver.solve`
(lines 51–62): after updating `x` and `r`, return `x` as soon as
`norm(r, 1) < tol` (where `tol` is already `self._tol * norm(b, 1)`),
otherwise continue with the updated state. -/
def pcgStep (A : List (List ℚ)) (M : List ℚ → List ℚ) (tolb : ℚ) (s : PCGState) :
    List ℚ ⊕ PCGState :=
  let xr := pcgUpdate A s
  if norm1 xr.2 < tolb then Sum.inl xr.1 else Sum.inr (pcgCont A M s)

/-- The `while True` loop, made total with a fuel parameter: `none` means the
loop is still running after `fuel` iterations (the source has no iteration
cap). -/
def pcgGo (A : List (List ℚ)) (M : List ℚ → List ℚ) (tolb : ℚ) :
    ℕ → PCGState → Option (List ℚ)
  | 0, _ => none
  | n + 1, s =>
      match pcgStep A M tolb s with
      | Sum.inl x => some x
      | Sum.inr s1 => pcgGo A M tolb n s1

/-- `_PCGSolver`: the fixed matrix, the preconditioner and the tolerance. -/
structure PCGSolver where
  A : List (List ℚ)
  M : List ℚ → List ℚ
  tol : ℚ

/-- `_PCGSolver.__init__` (lines 35–38): `self._M = M or (lambda x: x)` — the
identity when no preconditioner is supplied. -/
def mkPCGSolver (A : List (List ℚ)) (M : Option (List ℚ → List ℚ)) (tol : ℚ) : PCGSolver :=
  ⟨A, M.getD (fun x => x), tol⟩

/-- `_PCGSolver.solve(b)` (lines 40–62) with an explicit iteration fuel:
`tol = self._tol * norm(b, 1)`, then the loop. -/
def PCGSolver.solve (S : PCGSolver) (b : List ℚ) (fuel : ℕ) : Option (List ℚ) :=
  pcgGo S.A S.M (S.tol * norm1 b) fuel (pcgInit S.M b)

/-- The state of the loop after `k` completed (non-returning) iterations. -/
def pcgTrace (A : List (List ℚ)) (M : List ℚ → List ℚ) (s0 : PCGState) (k : ℕ) : PCGState :=
  iterN (pcgCont A M) k s0

/-- The Jacobi preconditioner the eigensolver passes to `_PCGSolver`
(line 167): `M = (1. / L.diagonal()).__mul__`, elementwise multiplication by
the reciprocal diagonal. -/
def jacobiApply (Ld : List ℚ) (r : List ℚ) : List ℚ :=
  List.zipWith (fun d x => (1 / d) * x) Ld r

/-! ### The outer TRACEMIN loop and the direct-solver regularization -/

/-- Structural skeleton of the `while True` loop of `_tracemin_fiedler`
(lines 191–216), abstracted over the loop state `S` and the external numerics:
`rr` performs the Gram-Schmidt orthonormalization and the Rayleigh-Ritz
projection producing the new `sigma` (lines 193–196), `conv` is the
convergence test `norm(r, 1) < tol * Lnorm` (lines 198–201, skipped on the
first iteration), and `inv` performs the Ritz-vector update, the linear solves
and the Schur-complement correction (lines 204–216).  `none` means the loop is
still running after `fuel` iterations (the source has no iteration cap). -/
def traceminLoopGo {S : Type} (rr : S → S) (conv : S → Bool) (inv : S → S) :
    ℕ → Bool → S → Option S
  | 0, _, _ => none
  | n + 1, first, s =>
      let s1 := rr s
      if first = false ∧ conv s1 = true then some s1
      else traceminLoopGo rr conv inv n false (inv s1)

/-- `numpy.argmin` on a list: index of the first minimum (`bi`/`bv` hold the
best index and value so far, `i` the index of the head of the list). -/
def argminFrom (i bi : ℕ) (bv : ℚ) : List ℚ → ℕ
  | [] => bi
  | x :: xs => if x < bv then argminFrom (i + 1) i x xs else argminFrom (i + 1) bi bv xs

/-- `A.diagonal().argmin()`: 0 on an empty list. -/
def argminIdx : List ℚ → ℕ
  | [] => 0
  | x :: xs => argminFrom 1 0 x xs

/-- The diagonal of a matrix given as a list of rows. -/
def diagOf (L : List (List ℚ)) : List ℚ :=
  (List.range L.length).map (fun i => (L.getD i []).getD i 0)

/-- Matrix entry access with defaults (queries are made within bounds). -/
def entryT (A : List (List (WithTop ℚ))) (r c : ℕ) : WithTop ℚ :=
  (A.getD r []).getD c 0

/-- The inclusion of the rationals into the rationals with +infinity. -/
def qTop (x : ℚ) : WithTop ℚ := (x : WithTop ℚ)

/-- The regularized copy the eigensolver factors for the `chol`/`lu` solvers
(lines 169–178): a copy of `L` whose diagonal entry at the index of the
smallest diagonal value is set to `float('inf')` (modelled as `⊤` in
`WithTop ℚ`); `L` itself, being copied, is untouched. -/
def regularize (L : List (List ℚ)) : List (List (WithTop ℚ)) :=
  let A := L.map (fun row => row.map qTop)
  let i := argminIdx (diagOf L)
  A.set i ((A.getD i []).set i ⊤)


/-! ### Errors and method-string dispatch -/

/-- The exceptions the source can raise: `nx.NetworkXError` with its distinct
messages, and `NetworkXNotImplemented` from the `@not_implemented_for`
decorator on `algebraic_connectivity` and `fiedler_vector`. -/
inductive PyError
  | networkXNotImplemented
  | networkXErrorFewNodes
  | networkXErrorNotConnected
  | networkXErrorUnknownSolver
  | networkXErrorBadMethod
  | networkXErrorEmptyGraph
  | networkXErrorCholUnavailable
  | networkXErrorLuUnavailable
deriving DecidableEq, Repr

instance {ε α : Type} [DecidableEq ε] [DecidableEq α] : DecidableEq (Except ε α) :=
  fun a b =>
    match a, b with
    | .ok x, .ok y =>
        if h : x = y then isTrue (by rw [h]) else isFalse (by intro hc; cases hc; exact h rfl)
    | .error x, .error y =>
        if h : x = y then isTrue (by rw [h]) else isFalse (by intro hc; cases hc; exact h rfl)
    | .ok _, .error _ => isFalse (by intro hc; cases hc)
    | .error _, .ok _ => isFalse (by intro hc; cases hc)

/-- Whether an exception is of class `nx.NetworkXError` (the spec's
`InvalidArgument`/`NotConnected`/`SolverUnavailable` conditions all are). -/
def PyError.isNetworkXError : PyError → Bool
  | .networkXNotImplemented => false
  | _ => true

/-- A trailing newline of a string, when present, is invisible to the final
`$` of a Python regular expression. -/
def stripNL (cs : List Char) : List Char :=
  if cs.getLast? = some (Char.ofNat 10) then cs.dropLast else cs

/-- Embedding of `_tracemin_method.match(method)` for the compiled pattern
`^tracemin(?:_(.*))?$` under Python `re` semantics: `.` does not match a
newline and `$` also matches just before one trailing newline.  `none` means
no match; `some none` a match with group 1 absent; `some (some s)` a match
with group 1 equal to `s`. -/
def traceminMatch (s : String) : Option (Option String) :=
  let cs := stripNL s.data
  if cs = "tracemin".data then some none
  else if "tracemin_".data.isPrefixOf cs ∧
      (cs.drop 9).all (fun c => decide (c ≠ Char.ofNat 10)) then
    some (some (String.mk (cs.drop 9)))
  else none

/-- The linear solver chosen by `_tracemin_fiedler` (lines 166–180): the PCG
solver records the tolerance and the Laplacian diagonal that its Jacobi
preconditioner multiplies by elementwise; the direct solvers are represented
by their kind (their factorizations are external capabilities). -/
inductive SolverKind
  | pcg (tol : ℚ) (jdiag : List ℚ)
  | chol
  | lu
deriving DecidableEq, Repr

/-- Embedding of the solver dispatch of `_tracemin_fiedler` (lines 166–180).
`cholOK`/`luOK` model whether the optional `scikits.sparse.cholmod` and
`scipy.sparse.linalg.splu` capabilities are importable; when absent the
corresponding constructor raises `nx.NetworkXError` (lines 70–71, 89–90). -/
def traceminSolverDispatch (Ld : List ℚ) (tol : ℚ) (cholOK luOK : Bool) :
    Option String → Except PyError SolverKind
  | none => .ok (.pcg (tol / 10) Ld)
  | some s =>
      if s = "pcg" then .ok (.pcg (tol / 10) Ld)
      else if s = "chol" then
        (if cholOK then .ok .chol else .error .networkXErrorCholUnavailable)
      else if s = "lu" then
        (if luOK then .ok .lu else .error .networkXErrorLuUnavailable)
      else .error .networkXErrorUnknownSolver

/-- Results of the external dense/sparse eigensolvers (`scipy.linalg.eigh`
inside the TRACEMIN loop, `scipy.sparse.linalg.eigsh` on the arnoldi path);
the claims under study never depend on these values. -/
structure EigenOracle where
  traceminSigma0 : ℚ
  traceminX0 : List ℚ
  arnoldiSigma0 : ℚ
  arnoldiX1 : List ℚ

/-! ### The three API entry points -/

/-- Embedding of `algebraic_connectivity` (lines 221–293).  The
`@not_implemented_for('directed')` decorator rejects directed graphs; then:
fewer than two nodes is an error, a disconnected preprocessed graph returns 0,
a two-node graph returns the closed form `2·L[0,0]` (or `2.` normalized), and
otherwise the method string is dispatched. -/
def algebraic_connectivity (G : InGraph) (normalized : Bool) (tol : ℚ) (method : String)
    (cholOK luOK : Bool) (orc : EigenOracle) : Except PyError ℚ :=
  if G.directed then .error .networkXNotImplemented
  else if G.nodes.length < 2 then .error .networkXErrorFewNodes
  else if isConnected (preprocess_graph G) = false then .ok 0
  else if (preprocess_graph G).nodes.length = 2 then
    .ok (if normalized then 2 else 2 * Ldiag0 (preprocess_graph G))
  else
    match traceminMatch method with
    | some sv =>
        match traceminSolverDispatch (laplacianDiag (preprocess_graph G)) tol cholOK luOK sv with
        | .ok _ => .ok orc.traceminSigma0
        | .error e => .error e
    | none =>
        if method = "arnoldi" then .ok orc.arnoldiSigma0
        else .error .networkXErrorBadMethod

/-- Embedding of `fiedler_vector` (lines 296–371): same preconditions as
`algebraic_connectivity`, but a disconnected graph raises
`nx.NetworkXError('graph is not connected.')`, and the two-node closed form is
the vector `[1, -1]`. -/
def fiedler_vector (G : InGraph) (normalized : Bool) (tol : ℚ) (method : String)
    (cholOK luOK : Bool) (orc : EigenOracle) : Except PyError (List ℚ) :=
  if G.directed then .error .networkXNotImplemented
  else if G.nodes.length < 2 then .error .networkXErrorFewNodes
  else if isConnected (preprocess_graph G) = false then .error .networkXErrorNotConnected
  else if (preprocess_graph G).nodes.length = 2 then .ok [1, -1]
  else
    match traceminMatch method with
    | some sv =>
        match traceminSolverDispatch (laplacianDiag (preprocess_graph G)) tol cholOK luOK sv with
        | .ok _ => .ok orc.traceminX0
        | .error e => .error e
    | none =>
        if method = "arnoldi" then .ok orc.arnoldiX1
        else .error .networkXErrorBadMethod

/-! ### Connected components and `spectral_ordering` -/

/-- Whether `v` lies in the connected component of `u`. -/
def connTo (H : WGraph) (u v : ℕ) : Bool := decide (v ∈ reachFrom H u)

/-- Structural worker for `connectedComponents` (fuel = list length). -/
def compsGo (H : WGraph) : ℕ → List ℕ → List (List ℕ)
  | _, [] => []
  | 0, _ :: _ => []
  | n + 1, u :: rest =>
      ((u :: rest).filter (fun v => connTo H u v)) ::
        compsGo H n (rest.filter (fun v => ! connTo H u v))

/-- Modelled from the spec: `nx.connected_components` — the connected
components of the preprocessed graph, each listed in node order, enumerated in
order of first appearance of a member node. -/
def connectedComponents (H : WGraph) : List (List ℕ) :=
  compsGo H H.nodes.dedup.length H.nodes.dedup

/-- The comparison `sorted` applies to the triples `zip(fiedler, range(size),
component)`: lexicographic on the Fiedler value then the positional index.
The node in the third slot is never compared, because the indices in the
second slot are pairwise distinct. -/
def keyLE (a b : ℚ × ℕ × ℕ) : Prop := a.1 < b.1 ∨ (a.1 = b.1 ∧ a.2.1 ≤ b.2.1)

instance : DecidableRel keyLE := fun a b => by unfold keyLE; infer_instance

instance : IsTotal (ℚ × ℕ × ℕ) keyLE :=
  ⟨fun a b => by
    unfold keyLE
    rcases lt_trichotomy a.1 b.1 with h | h | h
    · exact Or.inl (Or.inl h)
    · rcases le_total a.2.1 b.2.1 with h2 | h2
      · exact Or.inl (Or.inr ⟨h, h2⟩)
      · exact Or.inr (Or.inr ⟨h.symm, h2⟩)
    · exact Or.inr (Or.inl h)⟩

instance : IsTrans (ℚ × ℕ × ℕ) keyLE :=
  ⟨fun a b c hab hbc => by
    unfold keyLE at *
    rcases hab with h1 | ⟨h1, h1i⟩ <;> rcases hbc with h2 | ⟨h2, h2i⟩
    · exact Or.inl (h1.trans h2)
    · exact Or.inl (h2 ▸ h1)
    · exact Or.inl (h1 ▸ h2)
    · exact Or.inr ⟨h1.trans h2, h1i.trans h2i⟩⟩

/-- Python `zip` on three lists (truncating to the shortest). -/
def zip3 {α β γ : Type} : List α → List β → List γ → List (α × β × γ)
  | a :: as, b :: bs, c :: cs => (a, b, c) :: zip3 as bs cs
  | _, _, _ => []

/-- `sorted(zip(fiedler, range(size), component))` (line 451). -/
def sortedTriples (f : List ℕ → List ℚ) (comp : List ℕ) : List (ℚ × ℕ × ℕ) :=
  List.insertionSort keyLE (zip3 (f comp) (List.range comp.length) comp)

/-- The block of output nodes one component contributes (lines 446–453): a
component of more than two nodes is emitted sorted by (Fiedler value, index);
a smaller component is emitted as iterated. -/
def componentBlock (f : List ℕ → List ℚ) (comp : List ℕ) : List ℕ :=
  if 2 < comp.length then (sortedTriples f comp).map (fun t => t.2.2) else comp

/-- Embedding of `spectral_ordering` (lines 374–455).  An empty graph is an
error; the method string is parsed up front (lines 425–442); the Fiedler
vectors of the large components are supplied by the oracle `f`; an invalid
tracemin solver name (or an unavailable direct solver) raises only when some
component is large enough to invoke `_tracemin_fiedler` (fidelity note: the
solver is constructed per large component; which error it raises does not
depend on the component, so one dispatch on the whole graph's diagonal models
it). -/
def spectral_ordering (G : InGraph) (method : String) (cholOK luOK : Bool)
    (f : List ℕ → List ℚ) (tol : ℚ) : Except PyError (List ℕ) :=
  if G.nodes.length = 0 then .error .networkXErrorEmptyGraph
  else
    match traceminMatch method with
    | some sv =>
        if (connectedComponents (preprocess_graph G)).all (fun c => decide (c.length ≤ 2)) then
          .ok ((connectedComponents (preprocess_graph G)).map (componentBlock f)).flatten
        else
          match traceminSolverDispatch (laplacianDiag (preprocess_graph G)) tol cholOK luOK sv with
          | .ok _ => .ok ((connectedComponents (preprocess_graph G)).map (componentBlock f)).flatten
          | .error e => .error e
    | none =>
        if method = "arnoldi" then
          .ok ((connectedComponents (preprocess_graph G)).map (componentBlock f)).flatten
        else .error .networkXErrorBadMethod


/-! ### Lemmas about unordered pairs and `addWEdges` -/

theorem sameUPair_iff {u v x y : ℕ} :
    sameUPair u v x y = true ↔ (u = x ∧ v = y) ∨ (u = y ∧ v = x) := by
  simp [sameUPair]

theorem sameUPair_refl (u v : ℕ) : sameUPair u v u v = true := by
  simp [sameUPair]

theorem sameUPair_symm (u v x y : ℕ) : sameUPair u v x y = sameUPair x y u v := by
  simp only [sameUPair]
  apply decide_eq_decide.mpr
  constructor
  · rintro (⟨h1, h2⟩ | ⟨h1, h2⟩)
    · exact Or.inl ⟨h1.symm, h2.symm⟩
    · exact Or.inr ⟨h2.symm, h1.symm⟩
  · rintro (⟨h1, h2⟩ | ⟨h1, h2⟩)
    · exact Or.inl ⟨h1.symm, h2.symm⟩
    · exact Or.inr ⟨h2.symm, h1.symm⟩

theorem sameUPair_trans {u v a b c d : ℕ} (h1 : sameUPair u v a b = true)
    (h2 : sameUPair u v c d = true) : sameUPair a b c d = true := by
  rcases sameUPair_iff.mp h1 with ⟨e1, e2⟩ | ⟨e1, e2⟩ <;>
    rcases sameUPair_iff.mp h2 with ⟨e3, e4⟩ | ⟨e3, e4⟩ <;>
      subst e1 <;> subst e2 <;>
        first
          | exact sameUPair_iff.mpr (Or.inl ⟨e3, e4⟩)
          | exact sameUPair_iff.mpr (Or.inr ⟨e4, e3⟩)
          | exact sameUPair_iff.mpr (Or.inl ⟨e4, e3⟩)
          | exact sameUPair_iff.mpr (Or.inr ⟨e3, e4⟩)

theorem lastWeightFor_spec (u v : ℕ) (w : ℚ) (l : List (ℕ × ℕ × ℚ)) :
    lastWeightFor u v w l = w ∨
      ∃ t, t ∈ l ∧ sameUPair u v t.1 t.2.1 = true ∧ lastWeightFor u v w l = t.2.2 := by
  have hmem := List.getLast_mem
    (l := w :: (l.filter (fun t => sameUPair u v t.1 t.2.1)).map (fun t => t.2.2))
    (List.cons_ne_nil _ _)
  rw [List.mem_cons] at hmem
  rcases hmem with h | h
  · exact Or.inl h
  · rcases List.mem_map.mp h with ⟨t, ht, hval⟩
    rcases List.mem_filter.mp ht with ⟨htl, hsame⟩
    exact Or.inr ⟨t, htl, hsame, hval.symm⟩

/-- Every entry of the collapsed edge list takes its endpoints (in order) from
an entry of the input and its weight from an entry with the same unordered
pair. -/
theorem addWEdgesGo_mem :
    ∀ (n : ℕ) (l : List (ℕ × ℕ × ℚ)) (t : ℕ × ℕ × ℚ), t ∈ addWEdgesGo n l →
      (∃ w0, (t.1, t.2.1, w0) ∈ l) ∧
        ∃ s, s ∈ l ∧ sameUPair t.1 t.2.1 s.1 s.2.1 = true ∧ t.2.2 = s.2.2 := by
  intro n
  induction n with
  | zero =>
    intro l t ht
    cases l with
    | nil => simp [addWEdgesGo] at ht
    | cons a rest => simp [addWEdgesGo] at ht
  | succ n ih =>
    intro l t ht
    cases l with
    | nil => simp [addWEdgesGo] at ht
    | cons a rest =>
      obtain ⟨u, v, w⟩ := a
      simp only [addWEdgesGo, List.mem_cons] at ht
      rcases ht with rfl | ht
      · refine ⟨⟨w, List.mem_cons_self _ _⟩, ?_⟩
        rcases lastWeightFor_spec u v w rest with h | ⟨t0, ht0, hsame, hval⟩
        · exact ⟨(u, v, w), List.mem_cons_self _ _, sameUPair_refl u v, h⟩
        · exact ⟨t0, List.mem_cons_of_mem _ ht0, hsame, hval⟩
      · obtain ⟨⟨w0, hw0⟩, s, hs, hsame, hval⟩ := ih _ t ht
        refine ⟨⟨w0, List.mem_cons_of_mem _ (List.mem_of_mem_filter hw0)⟩,
          s, List.mem_cons_of_mem _ (List.mem_of_mem_filter hs), hsame, hval⟩

/-- The collapsed edge list contains no two entries with the same unordered
pair. -/
theorem addWEdgesGo_pairwise :
    ∀ (n : ℕ) (l : List (ℕ × ℕ × ℚ)),
      List.Pairwise (fun a b : ℕ × ℕ × ℚ => sameUPair a.1 a.2.1 b.1 b.2.1 = false)
        (addWEdgesGo n l) := by
  intro n
  induction n with
  | zero =>
    intro l
    cases l with
    | nil => simp [addWEdgesGo]
    | cons a rest => simp [addWEdgesGo]
  | succ n ih =>
    intro l
    cases l with
    | nil => simp [addWEdgesGo]
    | cons a rest =>
      obtain ⟨u, v, w⟩ := a
      simp only [addWEdgesGo]
      refine List.Pairwise.cons ?_ (ih _)
      intro b hb
      obtain ⟨⟨w0, hw0⟩, -⟩ := addWEdgesGo_mem n _ b hb
      have := (List.mem_filter.mp hw0).2
      simpa using this

theorem addWEdges_mem {l : List (ℕ × ℕ × ℚ)} {t : ℕ × ℕ × ℚ} (ht : t ∈ addWEdges l) :
    (∃ w0, (t.1, t.2.1, w0) ∈ l) ∧
      ∃ s, s ∈ l ∧ sameUPair t.1 t.2.1 s.1 s.2.1 = true ∧ t.2.2 = s.2.2 :=
  addWEdgesGo_mem l.length l t ht

theorem addWEdges_pairwise (l : List (ℕ × ℕ × ℚ)) :
    List.Pairwise (fun a b : ℕ × ℕ × ℚ => sameUPair a.1 a.2.1 b.1 b.2.1 = false)
      (addWEdges l) :=
  addWEdgesGo_pairwise l.length l


/-! ### Characterization of `_preprocess_graph` -/

theorem sameUPair_trans2 {p q r s a b : ℕ} (h1 : sameUPair p q r s = true)
    (h2 : sameUPair r s a b = true) : sameUPair p q a b = true := by
  have h1s : sameUPair r s p q = true := by rw [← sameUPair_symm]; exact h1
  exact sameUPair_trans h1s h2

theorem sameUPair_congr {u v x y : ℕ} (h : sameUPair u v x y = true) (a b : ℕ) :
    sameUPair x y a b = sameUPair u v a b := by
  cases h2 : sameUPair u v a b with
  | true =>
    have hxy : sameUPair x y u v = true := by rw [sameUPair_symm]; exact h
    exact sameUPair_trans2 hxy h2
  | false =>
    cases h3 : sameUPair x y a b with
    | true => exact absurd (sameUPair_trans2 h h3) (by rw [h2]; simp)
    | false => rfl

theorem absPairSum_cons (e : InEdge) (l : List InEdge) (u v : ℕ) :
    absPairSum (e :: l) u v =
      (if connectsUPair u v e = true then qabs (edgeW e) else 0) + absPairSum l u v := by
  by_cases h : connectsUPair u v e = true
  · simp [absPairSum, List.filter_cons, h]
  · simp [absPairSum, List.filter_cons, h]

theorem absPairSum_congr {u v x y : ℕ} (h : sameUPair u v x y = true) (l : List InEdge) :
    absPairSum l x y = absPairSum l u v := by
  unfold absPairSum
  rw [List.filter_congr (fun e _ => ?_)]
  show connectsUPair x y e = connectsUPair u v e
  unfold connectsUPair
  exact sameUPair_congr h e.src e.dst

/-- A self-loop never joins a pair of distinct vertices, so the directed
conversion (which also rewrites each weight attribute to its resolved value)
preserves the per-pair absolute weight sums. -/
theorem absPairSum_interEdges (l : List InEdge) {u v : ℕ} (huv : u ≠ v) :
    absPairSum
      ((l.filter (fun e => decide (e.src ≠ e.dst))).map
        (fun e => ⟨e.src, e.dst, some (edgeW e)⟩))
      u v = absPairSum l u v := by
  induction l with
  | nil => rfl
  | cons e tl ih =>
    by_cases hl : e.src = e.dst
    · have hnc : connectsUPair u v e = false := by
        cases hc : connectsUPair u v e with
        | false => rfl
        | true =>
          exfalso
          rcases sameUPair_iff.mp hc with ⟨h1, h2⟩ | ⟨h1, h2⟩ <;>
            exact huv (by rw [h1, h2, hl])
      rw [List.filter_cons, if_neg (by simpa using hl), absPairSum_cons, hnc]
      simpa using ih
    · rw [List.filter_cons, if_pos (by simpa using hl), List.map_cons,
        absPairSum_cons, absPairSum_cons]
      have hcc :
          connectsUPair u v (⟨e.src, e.dst, some (edgeW e)⟩ : InEdge) =
            connectsUPair u v e := rfl
      rw [hcc, ih]
      rcases hc : connectsUPair u v e with _ | _ <;> simp [edgeW]

/-- In an edge list with pairwise distinct unordered pairs, the edges joining
the pair of a member `e` are exactly `[e]`. -/
theorem filter_connects_single {x y : ℕ} :
    ∀ {l : List InEdge},
      List.Pairwise (fun a b : InEdge => sameUPair a.src a.dst b.src b.dst = false) l →
      ∀ {e : InEdge}, e ∈ l → connectsUPair x y e = true →
        l.filter (connectsUPair x y) = [e] := by
  intro l
  induction l with
  | nil => intro _ e he; exact absurd he (List.not_mem_nil e)
  | cons a tl ih =>
    intro hp e he hc
    rcases List.pairwise_cons.mp hp with ⟨ha, htl⟩
    rcases List.mem_cons.mp he with rfl | he'
    · rw [List.filter_cons, if_pos (by simpa using hc)]
      have : tl.filter (connectsUPair x y) = [] := by
        rw [List.filter_eq_nil_iff]
        intro b hb hcb
        have hab : sameUPair e.src e.dst b.src b.dst = true :=
          sameUPair_trans hc (by simpa using hcb)
        rw [ha b hb] at hab
        exact Bool.false_ne_true hab
      rw [this]
    · have hca : connectsUPair x y a = false := by
        cases hcb : connectsUPair x y a with
        | false => rfl
        | true =>
          exfalso
          have hab : sameUPair a.src a.dst e.src e.dst = true :=
            sameUPair_trans (by simpa using hcb) hc
          rw [ha e he'] at hab
          exact Bool.false_ne_true hab
      rw [List.filter_cons, if_neg (by simp [hca]), ih htl he' hc]

theorem addNode_of_mem {ns : List ℕ} {u : ℕ} (h : u ∈ ns) : addNode ns u = ns :=
  if_pos h

theorem nodesAfterAddW_of_subset :
    ∀ {l : List (ℕ × ℕ × ℚ)} {ns : List ℕ},
      (∀ t ∈ l, t.1 ∈ ns ∧ t.2.1 ∈ ns) → nodesAfterAddW ns l = ns := by
  intro l
  induction l with
  | nil => intro ns _; rfl
  | cons t tl ih =>
    intro ns h
    obtain ⟨h1, h2⟩ := h t (List.mem_cons_self _ _)
    show nodesAfterAddW (addNode (addNode ns t.1) t.2.1) tl = ns
    rw [addNode_of_mem h1, addNode_of_mem h2]
    exact ih (fun s hs => h s (List.mem_cons_of_mem _ hs))

theorem nodesAfterAddE_of_subset :
    ∀ {l : List InEdge} {ns : List ℕ},
      (∀ e ∈ l, e.src ∈ ns ∧ e.dst ∈ ns) → nodesAfterAddE ns l = ns := by
  intro l
  induction l with
  | nil => intro ns _; rfl
  | cons e tl ih =>
    intro ns h
    obtain ⟨h1, h2⟩ := h e (List.mem_cons_self _ _)
    show nodesAfterAddE (addNode (addNode ns e.src) e.dst) tl = ns
    rw [addNode_of_mem h1, addNode_of_mem h2]
    exact ih (fun s hs => h s (List.mem_cons_of_mem _ hs))

theorem interEdges_endpoints {G : InGraph}
    (hep : ∀ e ∈ G.edges, e.src ∈ G.nodes ∧ e.dst ∈ G.nodes) :
    ∀ e ∈ interEdges G, e.src ∈ G.nodes ∧ e.dst ∈ G.nodes := by
  intro e he
  unfold interEdges at he
  by_cases hd : G.directed = true
  · rw [if_pos hd] at he
    rcases List.mem_map.mp he with ⟨e0, he0, rfl⟩
    exact hep e0 (List.mem_of_mem_filter he0)
  · rw [if_neg hd] at he
    exact hep e he

theorem keptList_endpoints {G : InGraph}
    (hep : ∀ e ∈ G.edges, e.src ∈ G.nodes ∧ e.dst ∈ G.nodes) :
    ∀ t ∈ keptList G, t.1 ∈ G.nodes ∧ t.2.1 ∈ G.nodes := by
  intro t ht
  have ht2 := List.mem_of_mem_filter ht
  unfold weightedList at ht2
  by_cases hm : (G.directed || G.multi) = true
  · rw [if_pos hm] at ht2
    rcases List.mem_map.mp ht2 with ⟨e, he, rfl⟩
    exact interEdges_endpoints hep e (List.mem_of_mem_filter he)
  · rw [if_neg hm] at ht2
    rcases List.mem_map.mp ht2 with ⟨e, he, rfl⟩
    exact interEdges_endpoints hep e (List.mem_of_mem_filter he)

/-- Preprocessing preserves the node list when every edge endpoint is a node
of the input graph (a networkx graph invariant). -/
theorem preprocess_graph_nodes {G : InGraph}
    (hep : ∀ e ∈ G.edges, e.src ∈ G.nodes ∧ e.dst ∈ G.nodes) :
    (preprocess_graph G).nodes = G.nodes := by
  show nodesAfterAddW (interNodes G) (keptList G) = G.nodes
  have hIN : interNodes G = G.nodes := by
    unfold interNodes
    by_cases hd : G.directed = true
    · rw [if_pos hd]; exact nodesAfterAddE_of_subset (interEdges_endpoints hep)
    · rw [if_neg hd]
  rw [hIN]
  exact nodesAfterAddW_of_subset (keptList_endpoints hep)

theorem keptList_mem {G : InGraph} {t : ℕ × ℕ × ℚ} (ht : t ∈ keptList G) :
    t.2.2 ≠ 0 ∧ t.1 ≠ t.2.1 ∧
      ((G.directed || G.multi) = true →
        t.2.2 = absPairSum (interEdges G) t.1 t.2.1) ∧
      ((G.directed || G.multi) = false →
        ∃ e, e ∈ G.edges ∧ e.src = t.1 ∧ e.dst = t.2.1 ∧ t.2.2 = qabs (edgeW e)) := by
  rcases List.mem_filter.mp ht with ⟨htw, htnz⟩
  have hnz : t.2.2 ≠ 0 := by simpa using htnz
  unfold weightedList at htw
  by_cases hm : (G.directed || G.multi) = true
  · rw [if_pos hm] at htw
    rcases List.mem_map.mp htw with ⟨e, he, rfl⟩
    have hne : e.src ≠ e.dst := by simpa using (List.mem_filter.mp he).2
    exact ⟨hnz, hne, fun _ => rfl, fun hc => absurd hm (by rw [hc]; simp)⟩
  · rw [if_neg hm] at htw
    rcases List.mem_map.mp htw with ⟨e, he, rfl⟩
    have hne : e.src ≠ e.dst := by simpa using (List.mem_filter.mp he).2
    have hG : interEdges G = G.edges := by
      unfold interEdges
      rw [if_neg (by intro hd; exact hm (by rw [hd]; simp))]
    refine ⟨hnz, hne, fun hmm => absurd hmm hm, fun _ => ⟨e, ?_, rfl, rfl, rfl⟩⟩
    rw [← hG]
    exact List.mem_of_mem_filter he

/-- The weight of every edge of the preprocessed graph is the sum of the
absolute resolved weights of the input edges joining its unordered pair, its
endpoints are distinct, and it is nonzero.  For an undirected simple input the
networkx invariant that distinct stored edges join distinct unordered pairs is
assumed. -/
theorem preprocess_graph_edge_weight {G : InGraph}
    (hsimple : (G.directed || G.multi) = false →
      List.Pairwise (fun a b : InEdge => sameUPair a.src a.dst b.src b.dst = false) G.edges) :
    ∀ t ∈ (preprocess_graph G).edges,
      t.1 ≠ t.2.1 ∧ t.2.2 ≠ 0 ∧ t.2.2 = absPairSum G.edges t.1 t.2.1 := by
  intro t ht
  obtain ⟨⟨w0, hw0⟩, s, hs, hsame, hval⟩ := addWEdges_mem ht
  obtain ⟨-, htne, -, -⟩ := keptList_mem hw0
  obtain ⟨hsnz, hsne, hsmulti, hssimple⟩ := keptList_mem hs
  have htne' : t.1 ≠ t.2.1 := htne
  refine ⟨htne', by rw [hval]; exact hsnz, ?_⟩
  by_cases hm : (G.directed || G.multi) = true
  · have hws : s.2.2 = absPairSum (interEdges G) s.1 s.2.1 := hsmulti hm
    have hcong : absPairSum (interEdges G) s.1 s.2.1 =
        absPairSum (interEdges G) t.1 t.2.1 :=
      absPairSum_congr hsame (interEdges G)
    rw [hval, hws, hcong]
    by_cases hd : G.directed = true
    · show absPairSum (interEdges G) t.1 t.2.1 = absPairSum G.edges t.1 t.2.1
      unfold interEdges
      rw [if_pos hd]
      exact absPairSum_interEdges G.edges htne'
    · show absPairSum (interEdges G) t.1 t.2.1 = absPairSum G.edges t.1 t.2.1
      unfold interEdges
      rw [if_neg hd]
  · have hm' : (G.directed || G.multi) = false := by
      cases h : (G.directed || G.multi) with
      | true => exact absurd h hm
      | false => rfl
    obtain ⟨e, heG, hes, hed, hew⟩ := hssimple hm'
    have hce : connectsUPair t.1 t.2.1 e = true := by
      unfold connectsUPair
      rw [hes, hed]
      exact hsame
    have hfil : G.edges.filter (connectsUPair t.1 t.2.1) = [e] :=
      filter_connects_single (hsimple hm') heG hce
    rw [hval, hew]
    unfold absPairSum
    rw [hfil]
    simp


/-! ### Short-circuit and dispatch lemmas for the API entry points -/

theorem algconn_of_disconnected {G : InGraph} (hd : G.directed = false)
    (h2 : ¬ G.nodes.length < 2) (hc : isConnected (preprocess_graph G) = false)
    (normalized : Bool) (tol : ℚ) (method : String) (cholOK luOK : Bool) (orc : EigenOracle) :
    algebraic_connectivity G normalized tol method cholOK luOK orc = .ok 0 := by
  unfold algebraic_connectivity
  rw [if_neg (by simp [hd]), if_neg h2, if_pos hc]

theorem fiedler_of_disconnected {G : InGraph} (hd : G.directed = false)
    (h2 : ¬ G.nodes.length < 2) (hc : isConnected (preprocess_graph G) = false)
    (normalized : Bool) (tol : ℚ) (method : String) (cholOK luOK : Bool) (orc : EigenOracle) :
    fiedler_vector G normalized tol method cholOK luOK orc =
      .error .networkXErrorNotConnected := by
  unfold fiedler_vector
  rw [if_neg (by simp [hd]), if_neg h2, if_pos hc]

theorem algconn_of_two_nodes {G : InGraph} (hd : G.directed = false)
    (h2 : ¬ G.nodes.length < 2) (hc : ¬ isConnected (preprocess_graph G) = false)
    (hn : (preprocess_graph G).nodes.length = 2)
    (normalized : Bool) (tol : ℚ) (method : String) (cholOK luOK : Bool) (orc : EigenOracle) :
    algebraic_connectivity G normalized tol method cholOK luOK orc =
      .ok (if normalized then 2 else 2 * Ldiag0 (preprocess_graph G)) := by
  unfold algebraic_connectivity
  rw [if_neg (by simp [hd]), if_neg h2, if_neg hc, if_pos hn]

theorem algconn_few_nodes {G : InGraph} (hd : G.directed = false)
    (h2 : G.nodes.length < 2)
    (normalized : Bool) (tol : ℚ) (method : String) (cholOK luOK : Bool) (orc : EigenOracle) :
    algebraic_connectivity G normalized tol method cholOK luOK orc =
      .error .networkXErrorFewNodes := by
  unfold algebraic_connectivity
  rw [if_neg (by simp [hd]), if_pos h2]

theorem fiedler_few_nodes {G : InGraph} (hd : G.directed = false)
    (h2 : G.nodes.length < 2)
    (normalized : Bool) (tol : ℚ) (method : String) (cholOK luOK : Bool) (orc : EigenOracle) :
    fiedler_vector G normalized tol method cholOK luOK orc =
      .error .networkXErrorFewNodes := by
  unfold fiedler_vector
  rw [if_neg (by simp [hd]), if_pos h2]

theorem spectral_ordering_empty {G : InGraph} (h : G.nodes.length = 0)
    (method : String) (cholOK luOK : Bool) (f : List ℕ → List ℚ) (tol : ℚ) :
    spectral_ordering G method cholOK luOK f tol = .error .networkXErrorEmptyGraph := by
  unfold spectral_ordering
  rw [if_pos h]

theorem algconn_bad_method {G : InGraph} (hd : G.directed = false)
    (h2 : ¬ G.nodes.length < 2) (hc : ¬ isConnected (preprocess_graph G) = false)
    (hn : ¬ (preprocess_graph G).nodes.length = 2)
    {method : String} (hm : traceminMatch method = none) (ha : method ≠ "arnoldi")
    (normalized : Bool) (tol : ℚ) (cholOK luOK : Bool) (orc : EigenOracle) :
    algebraic_connectivity G normalized tol method cholOK luOK orc =
      .error .networkXErrorBadMethod := by
  unfold algebraic_connectivity
  rw [if_neg (by simp [hd]), if_neg h2, if_neg hc, if_neg hn, hm]
  rw [if_neg ha]

theorem traceminSolverDispatch_unknown {sv : String}
    (h1 : sv ≠ "pcg") (h2 : sv ≠ "chol") (h3 : sv ≠ "lu")
    (Ld : List ℚ) (tol : ℚ) (cholOK luOK : Bool) :
    traceminSolverDispatch Ld tol cholOK luOK (some sv) =
      .error .networkXErrorUnknownSolver := by
  show (if sv = "pcg" then Except.ok (SolverKind.pcg (tol / 10) Ld)
      else if sv = "chol" then
        (if cholOK then Except.ok SolverKind.chol
          else Except.error PyError.networkXErrorCholUnavailable)
      else if sv = "lu" then
        (if luOK then Except.ok SolverKind.lu
          else Except.error PyError.networkXErrorLuUnavailable)
      else Except.error PyError.networkXErrorUnknownSolver) =
    Except.error PyError.networkXErrorUnknownSolver
  rw [if_neg h1, if_neg h2, if_neg h3]

theorem algconn_unknown_solver {G : InGraph} (hd : G.directed = false)
    (h2 : ¬ G.nodes.length < 2) (hc : ¬ isConnected (preprocess_graph G) = false)
    (hn : ¬ (preprocess_graph G).nodes.length = 2)
    {method sv : String} (hm : traceminMatch method = some (some sv))
    (h1 : sv ≠ "pcg") (h2s : sv ≠ "chol") (h3 : sv ≠ "lu")
    (normalized : Bool) (tol : ℚ) (cholOK luOK : Bool) (orc : EigenOracle) :
    algebraic_connectivity G normalized tol method cholOK luOK orc =
      .error .networkXErrorUnknownSolver := by
  unfold algebraic_connectivity
  rw [if_neg (by simp [hd]), if_neg h2, if_neg hc, if_neg hn, hm]
  simp only [traceminSolverDispatch_unknown h1 h2s h3]


/-! ### Auxiliary concrete material for witnesses -/

/-- A fixed oracle instance used by concrete instantiations. -/
def orc0 : EigenOracle := ⟨37, [], 53, []⟩

theorem qabs_ne_zero {w : ℚ} (hw : w ≠ 0) : qabs w ≠ 0 := by
  unfold qabs
  by_cases h : w < 0
  · rw [if_pos h]; exact neg_ne_zero.mpr hw
  · rw [if_neg h]; exact hw

/-- A two-node graph with one edge is connected. -/
theorem isConnected_two {a b : ℕ} (w : ℚ) (hab : a ≠ b) :
    isConnected ⟨[a, b], [(a, b, w)]⟩ = true := by
  simp [isConnected, reachFrom, iterN, rstep, nbrs, List.dedup_cons_of_mem,
    List.dedup_cons_of_not_mem, hab, Ne.symm hab]

/-- Preprocessing the two-node single-edge graph. -/
theorem preprocess_two {a b : ℕ} {w : ℚ} (hab : a ≠ b) (hw : w ≠ 0) :
    preprocess_graph ⟨false, false, [a, b], [⟨a, b, some w⟩]⟩ =
      ⟨[a, b], [(a, b, qabs w)]⟩ := by
  have hq := qabs_ne_zero hw
  simp [preprocess_graph, keptList, weightedList, interEdges, interNodes, edgeW, hab, hq,
    addWEdges, addWEdgesGo, lastWeightFor, nodesAfterAddW, addNode]

/-! ### The claims -/

/-- Claim C1: for every input graph (necessarily undirected, as both entry
points reject directed graphs) with at least two nodes whose preprocessed form
is disconnected, `algebraic_connectivity` returns exactly 0 — not an error —
while `fiedler_vector` on the same graph raises the not-connected
`NetworkXError`. -/
theorem claim_C1 (G : InGraph) (normalized : Bool) (tol : ℚ) (method : String)
    (cholOK luOK : Bool) (orc : EigenOracle)
    (hd : G.directed = false) (h2 : 2 ≤ G.nodes.length)
    (hc : isConnected (preprocess_graph G) = false) :
    algebraic_connectivity G normalized tol method cholOK luOK orc = .ok 0 ∧
      fiedler_vector G normalized tol method cholOK luOK orc =
        .error .networkXErrorNotConnected ∧
      PyError.isNetworkXError .networkXErrorNotConnected = true :=
  ⟨algconn_of_disconnected hd (not_lt.mpr h2) hc normalized tol method cholOK luOK orc,
    fiedler_of_disconnected hd (not_lt.mpr h2) hc normalized tol method cholOK luOK orc,
    rfl⟩

theorem claim_C1_witness :
    algebraic_connectivity ⟨false, false, [0, 1, 2], [⟨0, 1, some 1⟩]⟩ false 1 "tracemin"
        true true orc0 = .ok 0 ∧
      fiedler_vector ⟨false, false, [0, 1, 2], [⟨0, 1, some 1⟩]⟩ false 1 "tracemin"
        true true orc0 = .error .networkXErrorNotConnected ∧
      PyError.isNetworkXError .networkXErrorNotConnected = true :=
  claim_C1 ⟨false, false, [0, 1, 2], [⟨0, 1, some 1⟩]⟩ false 1 "tracemin" true true orc0
    rfl (by decide) (by decide)

/-- Claim C10: `algebraic_connectivity` validates the method string only after
the disconnected-graph and two-node short-circuits: a disconnected
preprocessed graph (with at least two nodes) returns 0, and a connected
two-node graph returns the closed form, for any method string whatsoever,
without raising. -/
theorem claim_C10 :
    (∀ (G : InGraph) (normalized : Bool) (tol : ℚ) (method : String)
        (cholOK luOK : Bool) (orc : EigenOracle),
      G.directed = false → 2 ≤ G.nodes.length →
      isConnected (preprocess_graph G) = false →
      algebraic_connectivity G normalized tol method cholOK luOK orc = .ok 0) ∧
    (∀ (G : InGraph) (normalized : Bool) (tol : ℚ) (method : String)
        (cholOK luOK : Bool) (orc : EigenOracle),
      G.directed = false → 2 ≤ G.nodes.length →
      isConnected (preprocess_graph G) = true →
      (preprocess_graph G).nodes.length = 2 →
      algebraic_connectivity G normalized tol method cholOK luOK orc =
        .ok (if normalized then 2 else 2 * Ldiag0 (preprocess_graph G))) := by
  constructor
  · intro G normalized tol method cholOK luOK orc hd h2 hc
    exact algconn_of_disconnected hd (not_lt.mpr h2) hc normalized tol method cholOK luOK orc
  · intro G normalized tol method cholOK luOK orc hd h2 hc hn
    exact algconn_of_two_nodes hd (not_lt.mpr h2) (by rw [hc]; simp) hn
      normalized tol method cholOK luOK orc

theorem claim_C10_witness :
    algebraic_connectivity ⟨false, false, [0, 1, 2], [⟨0, 1, some 1⟩]⟩ false 1
        "no%such%method" true true orc0 = .ok 0 ∧
      algebraic_connectivity ⟨false, false, [0, 1], [⟨0, 1, some 1⟩]⟩ false 1
        "another bogus method" true true orc0 =
        .ok (if false then 2
          else 2 * Ldiag0 (preprocess_graph ⟨false, false, [0, 1], [⟨0, 1, some 1⟩]⟩)) :=
  ⟨claim_C10.1 ⟨false, false, [0, 1, 2], [⟨0, 1, some 1⟩]⟩ false 1 "no%such%method"
      true true orc0 rfl (by decide) (by decide),
    claim_C10.2 ⟨false, false, [0, 1], [⟨0, 1, some 1⟩]⟩ false 1 "another bogus method"
      true true orc0 rfl (by decide) (by decide) (by decide)⟩

/-- Claim C3 counterexample: on the two-node graph whose single edge has
weight w = −1, `algebraic_connectivity` (unnormalized) returns 2 = 2·|w|,
which differs from the claimed 2·w = −2. -/
theorem claim_C3_counterexample :
    algebraic_connectivity ⟨false, false, [0, 1], [⟨0, 1, some (-1)⟩]⟩ false 1 "tracemin"
        true true orc0 = .ok 2 ∧ (2 : ℚ) ≠ 2 * (-1) := by
  constructor
  · have h1 : algebraic_connectivity ⟨false, false, [0, 1], [⟨0, 1, some (-1)⟩]⟩ false 1
        "tracemin" true true orc0 =
        .ok (2 * Ldiag0 (preprocess_graph ⟨false, false, [0, 1], [⟨0, 1, some (-1)⟩]⟩)) :=
      rfl
    have h2 : 2 * Ldiag0 (preprocess_graph ⟨false, false, [0, 1], [⟨0, 1, some (-1)⟩]⟩) =
        (2 : ℚ) := by
      rw [preprocess_two (by decide) (by norm_num)]
      norm_num [Ldiag0, wdegree, qabs]
    rw [h1, h2]
  · norm_num

/-- Claim C3 as amended: for every connected two-node graph with a single edge
of weight w ≠ 0, `algebraic_connectivity` returns 2·|w| in the unnormalized
case and exactly 2 in the normalized case, for every method string and every
oracle (so without invoking the eigensolver). -/
theorem claim_C3_amended (a b : ℕ) (w tol : ℚ) (method : String)
    (cholOK luOK : Bool) (orc : EigenOracle) (hab : a ≠ b) (hw : w ≠ 0) :
    algebraic_connectivity ⟨false, false, [a, b], [⟨a, b, some w⟩]⟩ false tol method
        cholOK luOK orc = .ok (2 * qabs w) ∧
      algebraic_connectivity ⟨false, false, [a, b], [⟨a, b, some w⟩]⟩ true tol method
        cholOK luOK orc = .ok 2 := by
  have hpre := preprocess_two (w := w) hab hw
  have hconn : isConnected (preprocess_graph ⟨false, false, [a, b], [⟨a, b, some w⟩]⟩) =
      true := by rw [hpre]; exact isConnected_two (qabs w) hab
  have hn : (preprocess_graph ⟨false, false, [a, b], [⟨a, b, some w⟩]⟩).nodes.length = 2 := by
    rw [hpre]
    rfl
  have hL : Ldiag0 (preprocess_graph ⟨false, false, [a, b], [⟨a, b, some w⟩]⟩) = qabs w := by
    rw [hpre]
    simp [Ldiag0, wdegree]
  constructor
  · rw [algconn_of_two_nodes rfl (by simp) (by rw [hconn]; simp) hn
      false tol method cholOK luOK orc]
    rw [if_neg (by simp), hL]
  · rw [algconn_of_two_nodes rfl (by simp) (by rw [hconn]; simp) hn
      true tol method cholOK luOK orc]
    rw [if_pos rfl]

theorem claim_C3_witness :
    algebraic_connectivity ⟨false, false, [0, 1], [⟨0, 1, some (-5)⟩]⟩ false 1 "bogus"
        true true orc0 = .ok (2 * qabs (-5)) ∧
      algebraic_connectivity ⟨false, false, [0, 1], [⟨0, 1, some (-5)⟩]⟩ true 1 "bogus"
        true true orc0 = .ok 2 :=
  claim_C3_amended 0 1 (-5) 1 "bogus" true true orc0 (by decide) (by norm_num)


/-- Claim C2: for every input graph (whose stored edges satisfy the networkx
invariants: endpoints are nodes, and a simple undirected graph stores at most
one edge per unordered pair), the preprocessed graph has exactly the same node
list, no self-loops, no two edges on the same unordered pair, and every
retained edge weight equals the sum of the absolute values of the resolved
weights (`absPairSum`, defaulting absent attributes to 1) of the input edges
joining its pair, and is nonzero. -/
theorem claim_C2 (G : InGraph)
    (hep : ∀ e ∈ G.edges, e.src ∈ G.nodes ∧ e.dst ∈ G.nodes)
    (hsimple : (G.directed || G.multi) = false →
      List.Pairwise (fun a b : InEdge => sameUPair a.src a.dst b.src b.dst = false) G.edges) :
    (preprocess_graph G).nodes = G.nodes ∧
      (∀ t ∈ (preprocess_graph G).edges, t.1 ≠ t.2.1) ∧
      List.Pairwise (fun a b : ℕ × ℕ × ℚ => sameUPair a.1 a.2.1 b.1 b.2.1 = false)
        (preprocess_graph G).edges ∧
      (∀ t ∈ (preprocess_graph G).edges,
        t.2.2 = absPairSum G.edges t.1 t.2.1 ∧ t.2.2 ≠ 0) := by
  refine ⟨preprocess_graph_nodes hep, ?_, addWEdges_pairwise (keptList G), ?_⟩
  · intro t ht
    exact (preprocess_graph_edge_weight hsimple t ht).1
  · intro t ht
    obtain ⟨-, hnz, hval⟩ := preprocess_graph_edge_weight hsimple t ht
    exact ⟨hval, hnz⟩

theorem claim_C2_witness :
    (preprocess_graph ⟨false, true, [0, 1, 2],
        [⟨0, 1, some 2⟩, ⟨1, 0, some (-3)⟩, ⟨1, 1, some 9⟩, ⟨1, 2, some 0⟩]⟩).nodes =
      [0, 1, 2] ∧
      (∀ t ∈ (preprocess_graph ⟨false, true, [0, 1, 2],
        [⟨0, 1, some 2⟩, ⟨1, 0, some (-3)⟩, ⟨1, 1, some 9⟩, ⟨1, 2, some 0⟩]⟩).edges,
        t.1 ≠ t.2.1) ∧
      List.Pairwise (fun a b : ℕ × ℕ × ℚ => sameUPair a.1 a.2.1 b.1 b.2.1 = false)
        (preprocess_graph ⟨false, true, [0, 1, 2],
          [⟨0, 1, some 2⟩, ⟨1, 0, some (-3)⟩, ⟨1, 1, some 9⟩, ⟨1, 2, some 0⟩]⟩).edges ∧
      (∀ t ∈ (preprocess_graph ⟨false, true, [0, 1, 2],
        [⟨0, 1, some 2⟩, ⟨1, 0, some (-3)⟩, ⟨1, 1, some 9⟩, ⟨1, 2, some 0⟩]⟩).edges,
        t.2.2 = absPairSum [⟨0, 1, some 2⟩, ⟨1, 0, some (-3)⟩, ⟨1, 1, some 9⟩, ⟨1, 2, some 0⟩]
          t.1 t.2.1 ∧ t.2.2 ≠ 0) :=
  claim_C2 ⟨false, true, [0, 1, 2],
      [⟨0, 1, some 2⟩, ⟨1, 0, some (-3)⟩, ⟨1, 1, some 9⟩, ⟨1, 2, some 0⟩]⟩
    (by decide) (fun h => absurd h (by decide))

/-- Claim C4 counterexample: the directed graph with edges (0→1, weight 3) and
(1→0, weight −4) preprocesses to a single undirected edge of weight 7 — the
sum of the absolute values — not the sum of the weights, which is −1. -/
theorem claim_C4_counterexample :
    (preprocess_graph ⟨true, false, [0, 1], [⟨0, 1, some 3⟩, ⟨1, 0, some (-4)⟩]⟩).edges =
      [(0, 1, 7)] ∧ (7 : ℚ) ≠ 3 + (-4) := by
  constructor
  · norm_num [preprocess_graph, interEdges, interNodes, weightedList, keptList,
      addWEdges, addWEdgesGo, lastWeightFor, absPairSum,
      connectsUPair, sameUPair, edgeW, qabs]
  · norm_num

/-- Claim C4 as amended: for every directed input graph, every edge of the
preprocessed graph joins two distinct nodes and carries the sum of the
absolute values of the resolved weights of all input edges joining that pair
(in either direction); in particular the two-edge opposite-direction pattern
collapses to one undirected edge weighted |w₁| + |w₂|. -/
theorem claim_C4_amended :
    (∀ (G : InGraph), G.directed = true →
      ∀ t ∈ (preprocess_graph G).edges,
        t.1 ≠ t.2.1 ∧ t.2.2 = absPairSum G.edges t.1 t.2.1) ∧
    (∀ (a b : ℕ) (w1 w2 : ℚ), a ≠ b → qabs w1 + qabs w2 ≠ 0 →
      (preprocess_graph ⟨true, false, [a, b], [⟨a, b, some w1⟩, ⟨b, a, some w2⟩]⟩).edges =
        [(a, b, qabs w1 + qabs w2)]) := by
  constructor
  · intro G hdG t ht
    have hsimple : (G.directed || G.multi) = false →
        List.Pairwise (fun a b : InEdge => sameUPair a.src a.dst b.src b.dst = false)
          G.edges := by
      intro hff
      rw [hdG] at hff
      simp at hff
    obtain ⟨hne, -, hval⟩ := preprocess_graph_edge_weight hsimple t ht
    exact ⟨hne, hval⟩
  · intro a b w1 w2 hab hS
    simp [preprocess_graph, interEdges, interNodes, weightedList, keptList,
      addWEdges, addWEdgesGo, lastWeightFor, absPairSum,
      connectsUPair, sameUPair, edgeW, hab, Ne.symm hab, hS,
      nodesAfterAddE, nodesAfterAddW, addNode]

theorem claim_C4_witness :
    (∀ t ∈ (preprocess_graph ⟨true, true, [5, 6],
        [⟨5, 6, some 2⟩, ⟨6, 5, some (-3)⟩, ⟨5, 6, none⟩]⟩).edges,
      t.1 ≠ t.2.1 ∧
        t.2.2 = absPairSum [⟨5, 6, some 2⟩, ⟨6, 5, some (-3)⟩, ⟨5, 6, none⟩] t.1 t.2.1) ∧
      (preprocess_graph ⟨true, false, [0, 1], [⟨0, 1, some 3⟩, ⟨1, 0, some (-4)⟩]⟩).edges =
        [(0, 1, qabs 3 + qabs (-4))] :=
  ⟨claim_C4_amended.1 ⟨true, true, [5, 6],
      [⟨5, 6, some 2⟩, ⟨6, 5, some (-3)⟩, ⟨5, 6, none⟩]⟩ rfl,
    claim_C4_amended.2 0 1 3 (-4) (by decide) (by norm_num [qabs])⟩


/-! ### The PCG convergence behaviour -/

/-- The solution the loop would return at the end of iteration `k`. -/
def pcgXAt (A : List (List ℚ)) (M : List ℚ → List ℚ) (s0 : PCGState) (k : ℕ) : List ℚ :=
  (pcgUpdate A (pcgTrace A M s0 k)).1

/-- The residual tested at the end of iteration `k`. -/
def pcgResAt (A : List (List ℚ)) (M : List ℚ → List ℚ) (s0 : PCGState) (k : ℕ) : List ℚ :=
  (pcgUpdate A (pcgTrace A M s0 k)).2

/-- The PCG loop returns a solution exactly at the first iteration whose
post-update residual 1-norm falls strictly below the threshold, and the
returned value is the solution accumulated at that iteration. -/
theorem pcgGo_some_iff (A : List (List ℚ)) (M : List ℚ → List ℚ) (tolb : ℚ) :
    ∀ (fuel : ℕ) (s0 : PCGState) (x : List ℚ),
      pcgGo A M tolb fuel s0 = some x ↔
        ∃ k, k < fuel ∧ (∀ j, j < k → ¬ norm1 (pcgResAt A M s0 j) < tolb) ∧
          norm1 (pcgResAt A M s0 k) < tolb ∧ x = pcgXAt A M s0 k := by
  intro fuel
  induction fuel with
  | zero =>
    intro s0 x
    constructor
    · intro h; exact absurd h (by simp [pcgGo])
    · rintro ⟨k, hk, -⟩; exact absurd hk (Nat.not_lt_zero k)
  | succ n ih =>
    intro s0 x
    by_cases h : norm1 (pcgUpdate A s0).2 < tolb
    · have hstep : pcgStep A M tolb s0 = Sum.inl (pcgUpdate A s0).1 := by
        unfold pcgStep
        rw [if_pos h]
      constructor
      · intro hgo
        rw [pcgGo, hstep] at hgo
        refine ⟨0, Nat.succ_pos n, fun j hj => absurd hj (Nat.not_lt_zero j), h, ?_⟩
        injection hgo with hgo
        exact hgo.symm
      · rintro ⟨k, hk, hpre, hconv, rfl⟩
        cases k with
        | zero => rw [pcgGo, hstep]; rfl
        | succ k0 => exact absurd h (hpre 0 (Nat.succ_pos k0))
    · have hstep : pcgStep A M tolb s0 = Sum.inr (pcgCont A M s0) := by
        unfold pcgStep
        rw [if_neg h]
      have htr : ∀ k, pcgTrace A M s0 (k + 1) = pcgTrace A M (pcgCont A M s0) k :=
        fun k => rfl
      constructor
      · intro hgo
        rw [pcgGo, hstep] at hgo
        obtain ⟨k, hk, hpre, hconv, hx⟩ := (ih (pcgCont A M s0) x).mp hgo
        refine ⟨k + 1, Nat.succ_lt_succ hk, ?_, ?_, ?_⟩
        · intro j hj
          cases j with
          | zero => exact h
          | succ j0 =>
            have hj0 : j0 < k := Nat.lt_of_succ_lt_succ hj
            have := hpre j0 hj0
            unfold pcgResAt at this ⊢
            rw [htr j0]
            exact this
        · unfold pcgResAt
          rw [htr k]
          exact hconv
        · unfold pcgXAt
          rw [htr k]
          exact hx
      · rintro ⟨k, hk, hpre, hconv, hx⟩
        cases k with
        | zero => exact absurd hconv h
        | succ k0 =>
          rw [pcgGo, hstep]
          refine (ih (pcgCont A M s0) x).mpr ⟨k0, Nat.lt_of_succ_lt_succ hk, ?_, ?_, ?_⟩
          · intro j hj
            have := hpre (j + 1) (Nat.succ_lt_succ hj)
            unfold pcgResAt at this ⊢
            rw [htr j] at this
            exact this
          · unfold pcgResAt at hconv ⊢
            rw [htr k0] at hconv
            exact hconv
          · unfold pcgXAt at hx ⊢
            rw [htr k0] at hx
            exact hx

/-- Claim C5: the PCG loop returns the accumulated solution exactly at the
first iteration where the post-update residual 1-norm drops strictly below
`tol·‖b‖₁`; the eigensolver constructs the solver with one tenth of its own
tolerance and the Jacobi preconditioner `r ⊘ diag(L)`; the preconditioner is
the identity when none is supplied. -/
theorem claim_C5 :
    (∀ (A : List (List ℚ)) (M : List ℚ → List ℚ) (tolb : ℚ) (fuel : ℕ)
        (s0 : PCGState) (x : List ℚ),
      pcgGo A M tolb fuel s0 = some x ↔
        ∃ k, k < fuel ∧ (∀ j, j < k → ¬ norm1 (pcgResAt A M s0 j) < tolb) ∧
          norm1 (pcgResAt A M s0 k) < tolb ∧ x = pcgXAt A M s0 k) ∧
    (∀ (S : PCGSolver) (b : List ℚ) (fuel : ℕ),
      S.solve b fuel = pcgGo S.A S.M (S.tol * norm1 b) fuel (pcgInit S.M b)) ∧
    (∀ (Ld : List ℚ) (tol : ℚ) (cholOK luOK : Bool) (sv : Option String),
      sv = none ∨ sv = some "pcg" →
      traceminSolverDispatch Ld tol cholOK luOK sv = .ok (.pcg (tol / 10) Ld)) ∧
    (∀ (Ld r : List ℚ), jacobiApply Ld r = List.zipWith (fun d x => x / d) Ld r) ∧
    (∀ (A : List (List ℚ)) (tol : ℚ) (b : List ℚ), (mkPCGSolver A none tol).M b = b) := by
  refine ⟨pcgGo_some_iff, fun S b fuel => rfl, ?_, ?_, fun A tol b => rfl⟩
  · rintro Ld tol cholOK luOK sv (rfl | rfl)
    · rfl
    · show (if "pcg" = "pcg" then Except.ok (SolverKind.pcg (tol / 10) Ld)
          else if "pcg" = "chol" then
            (if cholOK then Except.ok SolverKind.chol
              else Except.error PyError.networkXErrorCholUnavailable)
          else if "pcg" = "lu" then
            (if luOK then Except.ok SolverKind.lu
              else Except.error PyError.networkXErrorLuUnavailable)
          else Except.error PyError.networkXErrorUnknownSolver) =
        Except.ok (SolverKind.pcg (tol / 10) Ld)
      rw [if_pos rfl]
  · intro Ld r
    induction Ld generalizing r with
    | nil => rfl
    | cons d ds ih =>
      cases r with
      | nil => rfl
      | cons x xs =>
        show ((1 / d) * x) :: jacobiApply ds xs = (x / d) :: List.zipWith _ ds xs
        rw [ih xs, one_div, inv_mul_eq_div]

theorem claim_C5_witness :
    traceminSolverDispatch [2] 1 true true none = .ok (.pcg (1 / 10) [2]) :=
  claim_C5.2.2.1 [2] 1 true true none (Or.inl rfl)

/-! ### Nontermination of the unbounded loops -/

/-- Claim C9: neither loop carries an iteration bound.  (1) On the concrete
system A = [[1]], b = [1] with tolerance 0 the PCG loop never returns, for any
amount of fuel.  (2) The TRACEMIN loop skeleton never returns when its
convergence test never holds.  (3) When the TRACEMIN loop does return, the
returned state satisfies the convergence test — the test is the only exit. -/
theorem claim_C9 :
    (∀ fuel : ℕ, (mkPCGSolver [[1]] none 0).solve [1] fuel = none) ∧
    (∀ (S : Type) (rr inv : S → S) (conv : S → Bool),
      (∀ s, conv s = false) →
      ∀ (fuel : ℕ) (first : Bool) (s : S), traceminLoopGo rr conv inv fuel first s = none) ∧
    (∀ (S : Type) (rr inv : S → S) (conv : S → Bool) (fuel : ℕ) (first : Bool) (s s1 : S),
      traceminLoopGo rr conv inv fuel first s = some s1 → conv s1 = true) := by
  refine ⟨?_, ?_, ?_⟩
  · have hstep0 : pcgStep [[1]] (fun v => v) 0 (pcgInit (fun v => v) [1]) =
        Sum.inr ⟨[1], [0], 0, [0]⟩ := by
      norm_num [pcgStep, pcgUpdate, pcgCont, pcgInit, matVec, dotL, norm1, vadd, vsub,
        smul, zerosLike, qabs]
    have hstep1 : pcgStep [[1]] (fun v => v) 0 ⟨[1], [0], 0, [0]⟩ =
        Sum.inr ⟨[1], [0], 0, [0]⟩ := by
      norm_num [pcgStep, pcgUpdate, pcgCont, matVec, dotL, norm1, vadd, vsub,
        smul, qabs]
    have hloop : ∀ n : ℕ,
        pcgGo [[1]] (fun v => v) 0 n ⟨[1], [0], 0, [0]⟩ = none := by
      intro n
      induction n with
      | zero => rfl
      | succ m ihm => rw [pcgGo, hstep1]; exact ihm
    intro fuel
    show pcgGo [[1]] (fun v => v) ((0 : ℚ) * norm1 [1]) fuel (pcgInit (fun v => v) [1]) = none
    rw [zero_mul]
    cases fuel with
    | zero => rfl
    | succ n => rw [pcgGo, hstep0]; exact hloop n
  · intro S rr inv conv hconv fuel
    induction fuel with
    | zero => intro first s; rfl
    | succ n ihn =>
      intro first s
      rw [traceminLoopGo, if_neg (by rw [hconv (rr s)]; simp)]
      exact ihn false (inv (rr s))
  · intro S rr inv conv fuel
    induction fuel with
    | zero => intro first s s1 h; exact absurd h (by simp [traceminLoopGo])
    | succ n ihn =>
      intro first s s1 h
      rw [traceminLoopGo] at h
      by_cases hc : first = false ∧ conv (rr s) = true
      · rw [if_pos hc] at h
        cases h
        exact hc.2
      · rw [if_neg hc] at h
        exact ihn false (inv (rr s)) s1 h

theorem claim_C9_witness :
    traceminLoopGo (fun n : ℕ => n + 1) (fun _ => false) (fun n : ℕ => n) 5 true 0 = none :=
  claim_C9.2.1 ℕ (fun n => n + 1) (fun n => n) (fun _ => false) (fun _ => rfl) 5 true 0


/-! ### The direct-solver regularization (claim C6) -/

/-- Entry access on a rational matrix given as a list of rows. -/
def entryQ (L : List (List ℚ)) (r c : ℕ) : ℚ := (L.getD r []).getD c 0

theorem getD_set_self {α : Type} :
    ∀ (l : List α) (i : ℕ) (a d : α), i < l.length → (l.set i a).getD i d = a := by
  intro l
  induction l with
  | nil => intro i a d h; exact absurd h (Nat.not_lt_zero i)
  | cons x xs ih =>
    intro i a d h
    cases i with
    | zero => rfl
    | succ n => exact ih n a d (Nat.lt_of_succ_lt_succ h)

theorem getD_set_ne {α : Type} :
    ∀ (l : List α) (i j : ℕ) (a d : α), i ≠ j → (l.set i a).getD j d = l.getD j d := by
  intro l
  induction l with
  | nil => intro i j a d _; rfl
  | cons x xs ih =>
    intro i j a d hij
    cases i with
    | zero =>
      cases j with
      | zero => exact absurd rfl hij
      | succ m => rfl
    | succ n =>
      cases j with
      | zero => rfl
      | succ m => exact ih n m a d (fun h => hij (by rw [h]))

theorem getD_mem_of_lt {α : Type} (l : List α) (i : ℕ) (d : α) (h : i < l.length) :
    l.getD i d ∈ l := by
  rw [List.getD_eq_getElem?_getD, List.getElem?_eq_getElem h]
  exact List.getElem_mem h

theorem mapRows_getD (L : List (List ℚ)) :
    ∀ r : ℕ, (L.map (fun row => row.map qTop)).getD r [] =
      (L.getD r []).map qTop := by
  induction L with
  | nil => intro r; rfl
  | cons row rows ih =>
    intro r
    cases r with
    | zero => rfl
    | succ n => exact ih n

theorem rowTop_getD (row : List ℚ) :
    ∀ c : ℕ, (row.map qTop).getD c 0 = qTop (row.getD c 0) := by
  induction row with
  | nil =>
    intro c
    show (0 : WithTop ℚ) = qTop 0
    exact (WithTop.coe_zero).symm
  | cons x xs ih =>
    intro c
    cases c with
    | zero => rfl
    | succ n => exact ih n

theorem entryT_toTop (L : List (List ℚ)) (r c : ℕ) :
    entryT (L.map (fun row => row.map qTop)) r c = qTop (entryQ L r c) := by
  unfold entryT entryQ
  rw [mapRows_getD, rowTop_getD]

theorem diagOf_length (L : List (List ℚ)) : (diagOf L).length = L.length := by
  simp [diagOf]

/-- `argminFrom` either keeps the incoming best (which then bounds the whole
suffix) or returns the offset position of the first strict minimum of the
suffix. -/
theorem argminFrom_spec :
    ∀ (l : List ℚ) (i bi : ℕ) (bv : ℚ),
      (argminFrom i bi bv l = bi ∧ ∀ k, k < l.length → bv ≤ l.getD k 0) ∨
      (∃ m, m < l.length ∧ argminFrom i bi bv l = i + m ∧ l.getD m 0 < bv ∧
        (∀ k, k < l.length → l.getD m 0 ≤ l.getD k 0) ∧
        (∀ k, k < m → l.getD m 0 < l.getD k 0)) := by
  intro l
  induction l with
  | nil =>
    intro i bi bv
    exact Or.inl ⟨rfl, fun k hk => absurd hk (Nat.not_lt_zero k)⟩
  | cons x xs ih =>
    intro i bi bv
    by_cases hx : x < bv
    · rw [show argminFrom i bi bv (x :: xs) = argminFrom (i + 1) i x xs from by
        rw [argminFrom, if_pos hx]]
      rcases ih (i + 1) i x with ⟨heq, hle⟩ | ⟨m, hm, heq, hlt, hle, hfirst⟩
      · refine Or.inr ⟨0, Nat.succ_pos _, by rw [heq, Nat.add_zero], hx, ?_, ?_⟩
        · intro k hk
          cases k with
          | zero => exact le_refl _
          | succ k0 => exact hle k0 (Nat.lt_of_succ_lt_succ hk)
        · intro k hk; exact absurd hk (Nat.not_lt_zero k)
      · refine Or.inr ⟨m + 1, Nat.succ_lt_succ hm, heq.trans (by omega), hlt.trans hx,
          ?_, ?_⟩
        · intro k hk
          cases k with
          | zero => exact hlt.le
          | succ k0 => exact hle k0 (Nat.lt_of_succ_lt_succ hk)
        · intro k hk
          cases k with
          | zero => exact hlt
          | succ k0 => exact hfirst k0 (Nat.lt_of_succ_lt_succ hk)
    · rw [show argminFrom i bi bv (x :: xs) = argminFrom (i + 1) bi bv xs from by
        rw [argminFrom, if_neg hx]]
      rcases ih (i + 1) bi bv with ⟨heq, hle⟩ | ⟨m, hm, heq, hlt, hle, hfirst⟩
      · refine Or.inl ⟨heq, ?_⟩
        intro k hk
        cases k with
        | zero => exact not_lt.mp hx
        | succ k0 => exact hle k0 (Nat.lt_of_succ_lt_succ hk)
      · refine Or.inr ⟨m + 1, Nat.succ_lt_succ hm, heq.trans (by omega), hlt, ?_, ?_⟩
        · intro k hk
          cases k with
          | zero => exact hlt.le.trans (not_lt.mp hx)
          | succ k0 => exact hle k0 (Nat.lt_of_succ_lt_succ hk)
        · intro k hk
          cases k with
          | zero => exact hlt.trans_le (not_lt.mp hx)
          | succ k0 => exact hfirst k0 (Nat.lt_of_succ_lt_succ hk)

/-- `argminIdx` returns an in-bounds index of the first minimum. -/
theorem argminIdx_spec (d : List ℚ) (hd : d ≠ []) :
    argminIdx d < d.length ∧
      (∀ k, k < d.length → d.getD (argminIdx d) 0 ≤ d.getD k 0) ∧
      (∀ k, k < argminIdx d → d.getD (argminIdx d) 0 < d.getD k 0) := by
  cases d with
  | nil => exact absurd rfl hd
  | cons x xs =>
    have hidx : argminIdx (x :: xs) = argminFrom 1 0 x xs := rfl
    rcases argminFrom_spec xs 1 0 x with ⟨heq, hle⟩ | ⟨m, hm, heq, hlt, hle, hfirst⟩
    · rw [hidx, heq]
      refine ⟨Nat.succ_pos _, ?_, fun k hk => absurd hk (Nat.not_lt_zero k)⟩
      intro k hk
      cases k with
      | zero => exact le_refl _
      | succ k0 =>
        rw [List.getD_cons_zero, List.getD_cons_succ]
        exact hle k0 (Nat.lt_of_succ_lt_succ hk)
    · rw [hidx, heq, show 1 + m = m + 1 from by omega]
      refine ⟨Nat.succ_lt_succ hm, ?_, ?_⟩
      · intro k hk
        cases k with
        | zero =>
          rw [List.getD_cons_succ, List.getD_cons_zero]
          exact hlt.le
        | succ k0 =>
          rw [List.getD_cons_succ, List.getD_cons_succ]
          exact hle k0 (Nat.lt_of_succ_lt_succ hk)
      · intro k hk
        cases k with
        | zero =>
          rw [List.getD_cons_succ, List.getD_cons_zero]
          exact hlt
        | succ k0 =>
          rw [List.getD_cons_succ, List.getD_cons_succ]
          exact hfirst k0 (Nat.lt_of_succ_lt_succ hk)

/-- Claim C6: for the direct solvers, the factored matrix is a copy of `L` in
which exactly the diagonal entry at the (first) index of the smallest diagonal
value has been set to +infinity; every other entry agrees with `L`, and `L`
itself — being copied — is untouched (here: `regularize` is a pure function of
`L`). -/
theorem claim_C6 (L : List (List ℚ)) (hL : L ≠ [])
    (hsq : ∀ row ∈ L, row.length = L.length) :
    entryT (regularize L) (argminIdx (diagOf L)) (argminIdx (diagOf L)) = ⊤ ∧
      (∀ r c : ℕ, ¬(r = argminIdx (diagOf L) ∧ c = argminIdx (diagOf L)) →
        entryT (regularize L) r c = qTop (entryQ L r c)) ∧
      argminIdx (diagOf L) < (diagOf L).length ∧
      (∀ k, k < (diagOf L).length →
        (diagOf L).getD (argminIdx (diagOf L)) 0 ≤ (diagOf L).getD k 0) ∧
      (∀ k, k < argminIdx (diagOf L) →
        (diagOf L).getD (argminIdx (diagOf L)) 0 < (diagOf L).getD k 0) := by
  have hdne : diagOf L ≠ [] :=
    List.ne_nil_of_length_pos (by rw [diagOf_length]; exact List.length_pos.mpr hL)
  obtain ⟨hlt, hmin, hfirst⟩ := argminIdx_spec (diagOf L) hdne
  have hiL : argminIdx (diagOf L) < L.length := by rw [← diagOf_length L]; exact hlt
  have hAlen : (L.map (fun row => row.map qTop)).length = L.length :=
    List.length_map _ _
  have hrowlen :
      ((L.map (fun row => row.map qTop)).getD (argminIdx (diagOf L)) []).length =
        L.length := by
    rw [mapRows_getD]
    exact (List.length_map _ _).trans (hsq _ (getD_mem_of_lt L _ [] hiL))
  refine ⟨?_, ?_, hlt, hmin, hfirst⟩
  · unfold regularize entryT
    rw [getD_set_self _ _ _ _ (by rw [hAlen]; exact hiL)]
    rw [getD_set_self _ _ _ _ (by rw [hrowlen]; exact hiL)]
  · intro r c hrc
    unfold regularize entryT
    by_cases hr : r = argminIdx (diagOf L)
    · have hc : ¬ c = argminIdx (diagOf L) := fun h => hrc ⟨hr, h⟩
      rw [hr]
      rw [getD_set_self _ _ _ _ (by rw [hAlen]; exact hiL)]
      rw [getD_set_ne _ _ _ _ _ (fun h => hc h.symm)]
      exact entryT_toTop L (argminIdx (diagOf L)) c
    · rw [getD_set_ne _ _ _ _ _ (fun h => hr h.symm)]
      exact entryT_toTop L r c

theorem claim_C6_witness :
    entryT (regularize [[5, 1], [2, 3]]) (argminIdx (diagOf [[5, 1], [2, 3]]))
        (argminIdx (diagOf [[5, 1], [2, 3]])) = ⊤ ∧
      (∀ r c : ℕ,
        ¬(r = argminIdx (diagOf [[5, 1], [2, 3]]) ∧
            c = argminIdx (diagOf [[5, 1], [2, 3]])) →
        entryT (regularize [[5, 1], [2, 3]]) r c =
          qTop (entryQ [[5, 1], [2, 3]] r c)) ∧
      argminIdx (diagOf [[5, 1], [2, 3]]) < (diagOf [[5, 1], [2, 3]]).length ∧
      (∀ k, k < (diagOf [[5, 1], [2, 3]]).length →
        (diagOf [[5, 1], [2, 3]]).getD (argminIdx (diagOf [[5, 1], [2, 3]])) 0 ≤
          (diagOf [[5, 1], [2, 3]]).getD k 0) ∧
      (∀ k, k < argminIdx (diagOf [[5, 1], [2, 3]]) →
        (diagOf [[5, 1], [2, 3]]).getD (argminIdx (diagOf [[5, 1], [2, 3]])) 0 <
          (diagOf [[5, 1], [2, 3]]).getD k 0) :=
  claim_C6 [[5, 1], [2, 3]] (by decide) (by decide)


/-! ### `spectral_ordering`: permutation, contiguity and sortedness (claim C7) -/

theorem mem_rstep_of_mem {H : WGraph} {s : List ℕ} {x : ℕ} (hx : x ∈ s) :
    x ∈ rstep H s :=
  List.mem_dedup.mpr (List.mem_append_left _ hx)

theorem mem_iterN_rstep {H : WGraph} :
    ∀ (n : ℕ) (s : List ℕ) (x : ℕ), x ∈ s → x ∈ iterN (rstep H) n s := by
  intro n
  induction n with
  | zero => intro s x hx; exact hx
  | succ m ih => intro s x hx; exact ih (rstep H s) x (mem_rstep_of_mem hx)

theorem connTo_self (H : WGraph) (u : ℕ) : connTo H u u = true :=
  decide_eq_true (mem_iterN_rstep H.nodes.length [u] u (List.mem_singleton_self u))

/-- The components produced by the scan partition the scanned node list. -/
theorem compsGo_flatten_perm (H : WGraph) :
    ∀ (n : ℕ) (l : List ℕ), l.length ≤ n → ((compsGo H n l).flatten).Perm l := by
  intro n
  induction n with
  | zero =>
    intro l hl
    cases l with
    | nil => simp [compsGo]
    | cons u rest => exact absurd hl (by simp)
  | succ m ih =>
    intro l hl
    cases l with
    | nil => simp [compsGo]
    | cons u rest =>
      show (((u :: rest).filter (fun v => connTo H u v) ::
        compsGo H m (rest.filter (fun v => ! connTo H u v))).flatten).Perm (u :: rest)
      rw [List.flatten_cons]
      have hfu : (u :: rest).filter (fun v => connTo H u v) =
          u :: rest.filter (fun v => connTo H u v) := by
        rw [List.filter_cons, if_pos (by rw [connTo_self])]
      rw [hfu]
      have hih : ((compsGo H m (rest.filter (fun v => ! connTo H u v))).flatten).Perm
          (rest.filter (fun v => ! connTo H u v)) :=
        ih _ ((List.length_filter_le _ _).trans (Nat.le_of_succ_le_succ hl))
      exact ((hih.append_left _).cons u).trans
        ((List.filter_append_perm (fun v => connTo H u v) rest).cons u)

theorem zip3_map_thd {α β : Type} :
    ∀ (c : List ℕ) (a : List α) (b : List β), a.length = c.length → b.length = c.length →
      (zip3 a b c).map (fun t => t.2.2) = c := by
  intro c
  induction c with
  | nil =>
    intro a b ha hb
    cases a with
    | nil => rfl
    | cons x xs => exact absurd ha (by simp)
  | cons y ys ih =>
    intro a b ha hb
    cases a with
    | nil => exact absurd ha (by simp)
    | cons x xs =>
      cases b with
      | nil => exact absurd hb (by simp)
      | cons z zs =>
        show y :: (zip3 xs zs ys).map (fun t => t.2.2) = y :: ys
        rw [ih xs zs (by simpa using ha) (by simpa using hb)]

theorem componentBlock_perm (f : List ℕ → List ℚ) (c : List ℕ)
    (hf : (f c).length = c.length) : (componentBlock f c).Perm c := by
  unfold componentBlock
  by_cases h : 2 < c.length
  · rw [if_pos h]
    have hp : (sortedTriples f c).Perm (zip3 (f c) (List.range c.length) c) :=
      List.perm_insertionSort keyLE _
    have h2 : (zip3 (f c) (List.range c.length) c).map (fun t => t.2.2) = c :=
      zip3_map_thd c (f c) (List.range c.length) hf (List.length_range _)
    exact (hp.map (fun t => t.2.2)).trans (by rw [h2])
  · rw [if_neg h]

theorem flatten_perm_of_blocks :
    ∀ (ls : List (List ℕ)) (g : List ℕ → List ℕ), (∀ c ∈ ls, (g c).Perm c) →
      ((ls.map g).flatten).Perm ls.flatten := by
  intro ls
  induction ls with
  | nil => intro g _; rfl
  | cons c cs ih =>
    intro g hg
    rw [List.map_cons, List.flatten_cons, List.flatten_cons]
    exact (hg c (List.mem_cons_self _ _)).append
      (ih g fun d hd => hg d (List.mem_cons_of_mem _ hd))

/-- Whenever `spectral_ordering` succeeds, the value it returns is the
concatenation of the per-component blocks. -/
theorem spectral_ordering_ok_shape {G : InGraph} {method : String} {cholOK luOK : Bool}
    {f : List ℕ → List ℚ} {tol : ℚ} {order : List ℕ}
    (heq : spectral_ordering G method cholOK luOK f tol = .ok order) :
    order = ((connectedComponents (preprocess_graph G)).map (componentBlock f)).flatten := by
  unfold spectral_ordering at heq
  split at heq
  · exact absurd heq (by simp)
  · split at heq
    · split at heq
      · injection heq with h
        exact h.symm
      · split at heq
        · injection heq with h
          exact h.symm
        · exact absurd heq (by simp)
    · split at heq
      · injection heq with h
        exact h.symm
      · exact absurd heq (by simp)

/-- Claim C7: whenever `spectral_ordering` succeeds (under the networkx
invariants that the node list has no duplicates and edge endpoints are nodes,
and with Fiedler vectors of the right length), the returned order is a
permutation of all nodes and is the concatenation of one contiguous block per
connected component, each block a permutation of its component; a block of a
component of size at most two is the component in its iteration order, and a
block of a larger component lists the third slots of the triples
(Fiedler value, index, node) sorted by (value, index) ascending. -/
theorem claim_C7 (G : InGraph) (method : String) (cholOK luOK : Bool)
    (f : List ℕ → List ℚ) (tol : ℚ) (order : List ℕ)
    (hf : ∀ c, (f c).length = c.length)
    (hnd : G.nodes.Nodup)
    (hep : ∀ e ∈ G.edges, e.src ∈ G.nodes ∧ e.dst ∈ G.nodes)
    (heq : spectral_ordering G method cholOK luOK f tol = .ok order) :
    order.Perm G.nodes ∧
      order = ((connectedComponents (preprocess_graph G)).map (componentBlock f)).flatten ∧
      (∀ c ∈ connectedComponents (preprocess_graph G),
        (componentBlock f c).Perm c ∧
          (c.length ≤ 2 → componentBlock f c = c) ∧
          (2 < c.length →
            componentBlock f c = (sortedTriples f c).map (fun t => t.2.2) ∧
              List.Sorted keyLE (sortedTriples f c) ∧
              (sortedTriples f c).Perm (zip3 (f c) (List.range c.length) c))) := by
  have hshape := spectral_ordering_ok_shape heq
  have hnodes : (preprocess_graph G).nodes = G.nodes := preprocess_graph_nodes hep
  have hperm : order.Perm G.nodes := by
    rw [hshape]
    have p1 : (((connectedComponents (preprocess_graph G)).map (componentBlock f)).flatten).Perm
        ((connectedComponents (preprocess_graph G)).flatten) :=
      flatten_perm_of_blocks _ _ (fun c _ => componentBlock_perm f c (hf c))
    have p2 : (((connectedComponents (preprocess_graph G)).flatten)).Perm
        (preprocess_graph G).nodes.dedup :=
      compsGo_flatten_perm (preprocess_graph G) _ _ (le_refl _)
    have p3 : (preprocess_graph G).nodes.dedup = G.nodes := by
      rw [hnodes, List.dedup_eq_self.mpr hnd]
    exact p1.trans (p3 ▸ p2)
  refine ⟨hperm, hshape, ?_⟩
  intro c _
  refine ⟨componentBlock_perm f c (hf c), ?_, ?_⟩
  · intro hle
    unfold componentBlock
    rw [if_neg (not_lt.mpr hle)]
  · intro hgt
    refine ⟨?_, List.sorted_insertionSort keyLE _, List.perm_insertionSort keyLE _⟩
    unfold componentBlock
    rw [if_pos hgt]

/-- A concrete stand-in for the Fiedler vector of the three-node component
used in the C7 instantiation. -/
def fOracle (c : List ℕ) : List ℚ :=
  c.map (fun u => if u = 0 then (8 : ℚ) else if u = 1 then 7 else 6)

theorem claim_C7_witness :
    ([2, 1, 0, 3] : List ℕ).Perm [0, 1, 2, 3] ∧
      ([2, 1, 0, 3] : List ℕ) =
        ((connectedComponents
            (preprocess_graph ⟨false, false, [0, 1, 2, 3],
              [⟨0, 1, some 1⟩, ⟨1, 2, some 1⟩]⟩)).map (componentBlock fOracle)).flatten ∧
      (∀ c ∈ connectedComponents
          (preprocess_graph ⟨false, false, [0, 1, 2, 3], [⟨0, 1, some 1⟩, ⟨1, 2, some 1⟩]⟩),
        (componentBlock fOracle c).Perm c ∧
          (c.length ≤ 2 → componentBlock fOracle c = c) ∧
          (2 < c.length →
            componentBlock fOracle c = (sortedTriples fOracle c).map (fun t => t.2.2) ∧
              List.Sorted keyLE (sortedTriples fOracle c) ∧
              (sortedTriples fOracle c).Perm (zip3 (fOracle c) (List.range c.length) c))) :=
  claim_C7 ⟨false, false, [0, 1, 2, 3], [⟨0, 1, some 1⟩, ⟨1, 2, some 1⟩]⟩ "tracemin_pcg"
    true true fOracle 1 [2, 1, 0, 3]
    (fun c => List.length_map c _) (by decide) (by decide) (by decide)


/-! ### Method-string validation (claim C8) -/

/-- Claim C8 counterexample: the method string "tracemin" followed by a
newline is none of the five documented method strings, yet a call that
reaches the eigensolver dispatch succeeds — Python `$` matches just before a
trailing newline, so the string matches `^tracemin(?:_(.*))?$` and is
dispatched to the tracemin solver. -/
theorem claim_C8_counterexample :
    ("tracemin".push (Char.ofNat 10)) ∉
        (["tracemin", "tracemin_pcg", "tracemin_chol", "tracemin_lu", "arnoldi"] :
          List String) ∧
      traceminMatch ("tracemin".push (Char.ofNat 10)) = some none ∧
      algebraic_connectivity ⟨false, false, [0, 1, 2], [⟨0, 1, some 1⟩, ⟨1, 2, some 1⟩]⟩
        false 1 ("tracemin".push (Char.ofNat 10)) true true orc0 =
        .ok orc0.traceminSigma0 := by
  refine ⟨by decide, by decide, ?_⟩
  decide

/-- Claim C8 as amended: a call that reaches the eigensolver dispatch fails
with `nx.NetworkXError` whenever the method string does not match the pattern
`^tracemin(?:_(.*))?$` under Python `re` semantics (under which one trailing
newline is tolerated) and is not "arnoldi"; a matching string whose suffix is
none of pcg/chol/lu also fails with `nx.NetworkXError`; a graph with fewer
than two nodes fails `algebraic_connectivity` and `fiedler_vector`, and an
empty graph fails `spectral_ordering`, likewise with `nx.NetworkXError`. -/
theorem claim_C8_amended :
    (∀ (G : InGraph) (normalized : Bool) (tol : ℚ) (method : String)
        (cholOK luOK : Bool) (orc : EigenOracle),
      G.directed = false → 2 ≤ G.nodes.length →
      isConnected (preprocess_graph G) = true →
      (preprocess_graph G).nodes.length ≠ 2 →
      traceminMatch method = none → method ≠ "arnoldi" →
      algebraic_connectivity G normalized tol method cholOK luOK orc =
          .error .networkXErrorBadMethod ∧
        PyError.isNetworkXError .networkXErrorBadMethod = true) ∧
    (∀ (G : InGraph) (normalized : Bool) (tol : ℚ) (method sv : String)
        (cholOK luOK : Bool) (orc : EigenOracle),
      G.directed = false → 2 ≤ G.nodes.length →
      isConnected (preprocess_graph G) = true →
      (preprocess_graph G).nodes.length ≠ 2 →
      traceminMatch method = some (some sv) →
      sv ≠ "pcg" → sv ≠ "chol" → sv ≠ "lu" →
      algebraic_connectivity G normalized tol method cholOK luOK orc =
          .error .networkXErrorUnknownSolver ∧
        PyError.isNetworkXError .networkXErrorUnknownSolver = true) ∧
    (∀ (G : InGraph) (normalized : Bool) (tol : ℚ) (method : String)
        (cholOK luOK : Bool) (orc : EigenOracle),
      G.directed = false → G.nodes.length < 2 →
      algebraic_connectivity G normalized tol method cholOK luOK orc =
          .error .networkXErrorFewNodes ∧
        fiedler_vector G normalized tol method cholOK luOK orc =
          .error .networkXErrorFewNodes ∧
        PyError.isNetworkXError .networkXErrorFewNodes = true) ∧
    (∀ (G : InGraph) (method : String) (cholOK luOK : Bool)
        (f : List ℕ → List ℚ) (tol : ℚ),
      G.nodes.length = 0 →
      spectral_ordering G method cholOK luOK f tol =
          .error .networkXErrorEmptyGraph ∧
        PyError.isNetworkXError .networkXErrorEmptyGraph = true) := by
  refine ⟨?_, ?_, ?_, ?_⟩
  · intro G normalized tol method cholOK luOK orc hd h2 hc hn hm ha
    exact ⟨algconn_bad_method hd (not_lt.mpr h2) (by rw [hc]; simp) hn hm ha
      normalized tol cholOK luOK orc, rfl⟩
  · intro G normalized tol method sv cholOK luOK orc hd h2 hc hn hm h1 h2s h3
    exact ⟨algconn_unknown_solver hd (not_lt.mpr h2) (by rw [hc]; simp) hn hm h1 h2s h3
      normalized tol cholOK luOK orc, rfl⟩
  · intro G normalized tol method cholOK luOK orc hd h2
    exact ⟨algconn_few_nodes hd h2 normalized tol method cholOK luOK orc,
      fiedler_few_nodes hd h2 normalized tol method cholOK luOK orc, rfl⟩
  · intro G method cholOK luOK f tol h0
    exact ⟨spectral_ordering_empty h0 method cholOK luOK f tol, rfl⟩

theorem claim_C8_witness :
    (algebraic_connectivity ⟨false, false, [0, 1, 2], [⟨0, 1, some 1⟩, ⟨1, 2, some 1⟩]⟩
        false 1 "lanczos" true true orc0 = .error .networkXErrorBadMethod ∧
      PyError.isNetworkXError .networkXErrorBadMethod = true) ∧
      (algebraic_connectivity ⟨false, false, [0, 1, 2], [⟨0, 1, some 1⟩, ⟨1, 2, some 1⟩]⟩
          false 1 "tracemin_foo" true true orc0 = .error .networkXErrorUnknownSolver ∧
        PyError.isNetworkXError .networkXErrorUnknownSolver = true) ∧
      (algebraic_connectivity ⟨false, false, [7], []⟩ false 1 "tracemin" true true orc0 =
          .error .networkXErrorFewNodes ∧
        fiedler_vector ⟨false, false, [7], []⟩ false 1 "tracemin" true true orc0 =
          .error .networkXErrorFewNodes ∧
        PyError.isNetworkXError .networkXErrorFewNodes = true) ∧
      (spectral_ordering ⟨false, false, [], []⟩ "tracemin" true true (fun _ => []) 1 =
          .error .networkXErrorEmptyGraph ∧
        PyError.isNetworkXError .networkXErrorEmptyGraph = true) :=
  ⟨claim_C8_amended.1 ⟨false, false, [0, 1, 2], [⟨0, 1, some 1⟩, ⟨1, 2, some 1⟩]⟩
      false 1 "lanczos" true true orc0 rfl (by decide) (by decide) (by decide)
      (by decide) (by decide),
    claim_C8_amended.2.1 ⟨false, false, [0, 1, 2], [⟨0, 1, some 1⟩, ⟨1, 2, some 1⟩]⟩
      false 1 "tracemin_foo" "foo" true true orc0 rfl (by decide) (by decide) (by decide)
      (by decide) (by decide) (by decide) (by decide),
    claim_C8_amended.2.2.1 ⟨false, false, [7], []⟩ false 1 "tracemin" true true orc0
      rfl (by decide),
    claim_C8_amended.2.2.2 ⟨false, false, [], []⟩ "tracemin" true true (fun _ => []) 1
      rfl⟩


end NX
